import Mathlib

/-!
# Verification development for `bin/macos-scan.py`

A shallow embedding, in Lean 4, of the two-phase macOS filesystem scanner
`bin/macos-scan.py`.  Python strings are modelled as `List Char` (`Str`);
the Python string operations used by the scanner (`startswith`, `split("/")`,
slicing, `lower()`, substring containment, `os.path.normpath`,
`os.path.join`, `os.path.basename`) are modelled by executable functions on
`Str`.  The filesystem is a finite tree (`FS`) with files, symbolic links
(carrying their resolved target) and directories (carrying a readability
flag: listing an unreadable directory raises `PermissionError` in Python,
which we model as `Option.none` results of `listdirAt`).

The mutable global objects of the script (`scanned_paths`,
`global_user_manual`, `global_user_gray`, `global_top_level_gray`,
`global_remaining_gray`, `global_ignored_paths`, the application lists and
brew data) are collected in one record `ScanState`; each data-gathering
function of the script becomes a state-transforming function.  Python sets
are modelled as lists with membership-checking insertion (`List.insert`),
and Python dicts as insertion-ordered association lists.
-/

set_option maxHeartbeats 1000000

/-- Python strings, as lists of characters. -/
abbrev Str := List Char

/-- Convert a Lean string literal to the `Str` model. -/
def strLit (s : String) : Str := s.data

/-- `isInitSeq pre l`: `pre` is an initial segment of `l`.  For `Str` this is
Python's `l.startswith(pre)`; it is also used on lists of path segments. -/
def isInitSeq {α : Type} [DecidableEq α] : List α → List α → Bool
  | [], _ => true
  | _ :: _, [] => false
  | a :: as, b :: bs => a = b && isInitSeq as bs

/-- Python's substring test `needle in hay` (note `"" in s` is `True`). -/
def containsSub (needle : Str) : Str → Bool
  | [] => needle.isEmpty
  | c :: rest => isInitSeq needle (c :: rest) || containsSub needle rest

/-- Python's `s.endswith(suf)`. -/
def endsWithStr (suf s : Str) : Bool := isInitSeq suf.reverse s.reverse

/-- Python's `s.lower()` (ASCII case folding suffices for every call site). -/
def lowerStr (s : Str) : Str := s.map Char.toLower

/-- Python's `s.split("/")`: splits at every `'/'`, keeping empty chunks
(so `"/a/b".split("/") == ["", "a", "b"]`). -/
def splitSlash : Str → List Str
  | [] => [[]]
  | c :: rest =>
    if c = '/' then [] :: splitSlash rest
    else
      match splitSlash rest with
      | [] => [[c]]
      | h :: t => (c :: h) :: t

/-- `"/".join`-style interleaving of path segments with `'/'`. -/
def interSlash : List Str → Str
  | [] => []
  | s :: rest =>
    match rest with
    | [] => s
    | _ :: _ => s ++ '/' :: interSlash rest

/-- The absolute path whose segment sequence is `segs` (`joinSegs [] = "/"`). -/
def joinSegs (segs : List Str) : Str := '/' :: interSlash segs

/-- One step of `posixpath.normpath`'s component scan for an absolute path:
empty and `"."` components are dropped, `".."` pops the last kept component
(at the root, `".."` is dropped), any other component is kept. -/
def normStep (acc : List Str) (seg : Str) : List Str :=
  if seg = [] ∨ seg = strLit "." then acc
  else if seg = strLit ".." then acc.dropLast
  else acc ++ [seg]

/-- `os.path.normpath`, restricted to absolute paths with a single leading
slash — the only inputs ever passed to it by the scanner (every call site
hands it a path built by `os.path.join` from `"/"`-rooted literals and
`os.listdir` entries).  The relative-path and `"//"`-prefix special cases
of `posixpath.normpath` are therefore not modelled. -/
def normpath (p : Str) : Str := joinSegs ((splitSlash p).foldl normStep [])

/-- `os.path.join a b` for the scanner's call sites: `b` replaces `a` when
absolute, otherwise a single separator is interposed unless `a` already ends
with one. -/
def pjoin (a b : Str) : Str :=
  if isInitSeq (strLit "/") b then b
  else if a = [] ∨ a.getLast? = some '/' then a ++ b
  else a ++ '/' :: b

/-- `os.path.basename` (last `"/"`-chunk of the path). -/
def basename (p : Str) : Str := (splitSlash p).getLastD []

/-- Number of `'/'` characters in a path; used to discriminate the shapes of
the paths the different passes record. -/
def countSlash (p : Str) : Nat := p.count '/'

/-- A *clean* name: what `os.listdir` may return as a single entry (nonempty,
no separator, never `"."` or `".."`).  Paths built by joining clean names to
an absolute base are `normpath`-stable. -/
def CleanName (s : Str) : Prop :=
  s ≠ [] ∧ '/' ∉ s ∧ s ≠ strLit "." ∧ s ≠ strLit ".."

instance : DecidablePred CleanName := fun s => by
  unfold CleanName; infer_instance

/-- Every segment of the list is a clean name. -/
def CleanSegs (l : List Str) : Prop := ∀ s ∈ l, CleanName s

instance : DecidablePred CleanSegs := fun l => by
  unfold CleanSegs; infer_instance

/-! ## The filesystem model

`os.walk` is used with `topdown=True` and the default `followlinks=False`:
symbolic links to directories appear in the `dirs` listing of their parent
(`DirEntry.is_dir` follows links) but are never descended into, while
`os.listdir`, `os.path.isdir` and `os.path.getsize` all follow links.  A
link therefore carries its (acyclic) resolved target.  `os.walk` of an
unreadable directory raises inside `scandir`; with the default
`onerror=None` that subtree silently yields nothing. -/

inductive FS where
  | file (size : Nat)
  | link (target : FS)
  | dir (readable : Bool) (children : List (Str × FS))
deriving Inhabited

/-- Chase symbolic links to the underlying file or directory. -/
def resolveFS : FS → FS
  | .link t => resolveFS t
  | f => f

/-- `os.path.islink` on a node. -/
def islinkB : FS → Bool
  | .link _ => true
  | _ => false

/-- `os.path.isdir` on a node (follows links, ignores readability). -/
def isdirB (f : FS) : Bool :=
  match resolveFS f with
  | .dir _ _ => true
  | _ => false

/-- Look up a child by name in a directory listing. -/
def childLookup (cs : List (Str × FS)) (name : Str) : Option FS :=
  match cs.find? (fun e => e.1 = name) with
  | some e => some e.2
  | none => none

/-- Walk a segment list down the tree (following links at every step). -/
def statSegs : FS → List Str → Option FS
  | f, [] => some f
  | f, s :: rest =>
    match resolveFS f with
    | .dir _ cs =>
      match childLookup cs s with
      | some c => statSegs c rest
      | none => none
    | _ => none

/-- Resolve an absolute path string to a node of the tree. -/
def statPath (fs : FS) (p : Str) : Option FS :=
  statSegs fs ((splitSlash p).filter (fun s => s ≠ []))

/-- `os.path.isdir(p)` (never raises; `False` for missing paths). -/
def isdirAt (fs : FS) (p : Str) : Bool :=
  match statPath fs p with
  | some n => isdirB n
  | none => false

/-- `os.listdir(p)`: `some` listing on a readable directory, `none` when the
call raises (missing path, not a directory, or permission denied). -/
def listdirAt (fs : FS) (p : Str) : Option (List Str) :=
  match statPath fs p with
  | some n =>
    match resolveFS n with
    | .dir true cs => some (cs.map (fun e => e.1))
    | _ => none
  | none => none

/-- `os.path.getsize(p)` through links; `none` when it raises. -/
def getsizeAt (fs : FS) (p : Str) : Option Nat :=
  match statPath fs p with
  | some n =>
    match resolveFS n with
    | .file sz => some sz
    | _ => none
  | none => none

mutual

/-- Well-formedness of a tree: every entry name anywhere (including behind
links) is a clean name, as `os.listdir` guarantees on a real filesystem. -/
def wfFS : FS → Bool
  | .file _ => true
  | .link t => wfFS t
  | .dir _ cs => wfChildren cs

/-- Well-formedness of a directory listing. -/
def wfChildren : List (Str × FS) → Bool
  | [] => true
  | (n, c) :: rest => decide (CleanName n) && wfFS c && wfChildren rest

end

/-! ## Static configuration of the scanner -/

/-- Directories included at the root (`INCLUDE_ROOT_DIRS`). -/
def INCLUDE_ROOT_DIRS : List Str :=
  [strLit "/Users", strLit "/Applications", strLit "/Volumes"]

/-- Directories ignored entirely (`IGNORED_ROOT_DIRS`), duplicates kept as in
the source. -/
def IGNORED_ROOT_DIRS : List Str :=
  [strLit "/System", strLit "/private", strLit "/etc", strLit "/cores",
   strLit "/Volumes", strLit "/Recovery", strLit "/home", strLit "/usr",
   strLit "/.resolve", strLit "/bin", strLit "/sbin", strLit "/var",
   strLit "/Library", strLit "/.vol", strLit "/opt", strLit "/dev",
   strLit "/Volumes", strLit "/.nofollow", strLit "/tmp"]

/-- Built-in macOS applications that are ignored (`DEFAULT_APPS_WHITELIST`). -/
def DEFAULT_APPS_WHITELIST : List Str :=
  [strLit "Safari", strLit "Mail", strLit "Calendar", strLit "FaceTime",
   strLit "Messages", strLit "Notes", strLit "App Store",
   strLit "System Preferences", strLit "Finder", strLit "Contacts",
   strLit "Reminders", strLit "Maps", strLit "Photos", strLit "Preview",
   strLit "iTunes", strLit "Music", strLit "TV", strLit "Numbers",
   strLit "Pages", strLit "Keynote", strLit "iMovie", strLit "GarageBand",
   strLit "Books", strLit "Podcasts", strLit "News", strLit "Stocks",
   strLit "Voice Memos", strLit "Home", strLit "Activity Monitor",
   strLit "Terminal", strLit "Console", strLit "Disk Utility",
   strLit "Script Editor", strLit "TextEdit", strLit "Calculator",
   strLit "Photo Booth", strLit "Automator", strLit "Dictionary",
   strLit "Font Book", strLit "Stickies", strLit "Grapher",
   strLit "Digital Color Meter", strLit "QuickTime Player",
   strLit "DVD Player", strLit "Chess", strLit "Migration Assistant",
   strLit "Feedback Assistant", strLit "ColorSync Utility",
   strLit "Audio MIDI Setup", strLit "Bluetooth File Exchange",
   strLit "Boot Camp Assistant"]

/-- Per-user folders summarized manually (`INCLUDE_USER_FOLDERS`). -/
def INCLUDE_USER_FOLDERS : List Str := [strLit "Desktop", strLit "Downloads"]

/-- Per-user gray-area scan locations (`SCAN_USER_GRAY_AREA_FOLDERS`). -/
def SCAN_USER_GRAY_AREA_FOLDERS : List Str :=
  [strLit "Library/Application Support", strLit "Documents", strLit "Music",
   strLit "Movies", strLit "Pictures"]

/-- Per-user folders skipped entirely (`IGNORE_USER_FOLDERS`), transcribed
with the source's duplicates kept. -/
def IGNORE_USER_FOLDERS : List Str :=
  [strLit ".Trash", strLit ".ansible", strLit ".asdf", strLit ".aws",
   strLit ".berkshelf", strLit ".bundle", strLit ".cache", strLit ".cups",
   strLit ".docker", strLit ".dropbox", strLit ".npm", strLit ".vscode",
   strLit ".yarn", strLit ".zsh_sessions", strLit "Native Instruments",
   strLit "Accessibility", strLit "Accounts", strLit "AppleMediaServices",
   strLit "AddressBook", strLit "Adobe", strLit "Alfred",
   strLit "App Store", strLit "Asana", strLit "AvastHUB", strLit "Blender",
   strLit "BraveSoftware", strLit "CallHistoryDB",
   strLit "CallHistoryTransactions", strLit "ChatGPT", strLit "Chromium",
   strLit "CloudDocs", strLit "Code", strLit "contactsd",
   strLit "ControlCenter", strLit "CrashReporter",
   strLit "DifferentialPrivacy", strLit "DiskImages", strLit "Dock",
   strLit "Docker Desktop", strLit "Dropbox", strLit "FaceTime",
   strLit "FileProvider", strLit "Firefox", strLit "GitHub Desktop",
   strLit "Google", strLit "homeenergyd", strLit "icdd", strLit "iCloud",
   strLit "identityservicesd", strLit "iMazing", strLit "iMovie",
   strLit "io.sentry", strLit "iTerm2", strLit "JetBrains",
   strLit "Knowledge", strLit "Microsoft", strLit "MobileSync",
   strLit "Mozilla", strLit "Native Instruments",
   strLit "networkserviceproxy", strLit "org.videolan.vlc",
   strLit "Postman", strLit "privatecloudcomputed", strLit "Slack",
   strLit "Spotlight", strLit "stickersd", strLit "Sublime Text",
   strLit "summary-events", strLit "SyncServices", strLit "tipsd",
   strLit "virtualenv", strLit "ZAP", strLit "zoom.us", strLit "Assistant",
   strLit "Assistants", strLit "Audio", strLit "Autosave Information",
   strLit "Biome", strLit "Caches", strLit "Calendars",
   strLit "CallServices", strLit "CloudStorage", strLit "ColorPickers",
   strLit "Colors", strLit "Compositions", strLit "Contacts",
   strLit "ContainerManager", strLit "Containers", strLit "Cookies",
   strLit "CoreFollowUp", strLit "Daemon Containers", strLit "DataAccess",
   strLit "DataDeliveryServices", strLit "DES", strLit "DoNotDisturb",
   strLit "Dropbox", strLit "DuetExpertCenter", strLit "Favorites",
   strLit "Finance", strLit "FontCollections", strLit "Fonts",
   strLit "FrontBoard", strLit "GameKit", strLit "Google",
   strLit "Group Containers", strLit "homeenergyd", strLit "HomeKit",
   strLit "HTTPStorages", strLit "IdentityServices",
   strLit "Input Methods", strLit "IntelligencePlatform",
   strLit "Intents", strLit "Internet Plug-Ins", strLit "iTunes",
   strLit "Keyboard", strLit "Keyboard Layouts", strLit "KeyboardServices",
   strLit "Keychains", strLit "LanguageModeling", strLit "LaunchAgents",
   strLit "LockdownMode", strLit "Logs", strLit "Mail", strLit "Messages",
   strLit "Metadata", strLit "Mobile Documents", strLit "News",
   strLit "NGL", strLit "Passes", strLit "PersonalizationPortrait",
   strLit "Photos", strLit "PPM", strLit "PreferencePanes",
   strLit "Preferences", strLit "Printers", strLit "PrivateCloudCompute",
   strLit "Python", strLit "QuickLook", strLit "Reminders",
   strLit "ResponseKit", strLit "Safari", strLit "SafariSafeBrowsing",
   strLit "SafariSandboxBroker", strLit "Saved Application State",
   strLit "Screen Savers", strLit "ScreenRecordings", strLit "Scripts",
   strLit "Services", strLit "Sharing", strLit "Shortcuts",
   strLit "Sounds", strLit "Spelling", strLit "Spotlight",
   strLit "Staging", strLit "StatusKit", strLit "Stickers",
   strLit "studentd", strLit "Suggestions", strLit "SyncedPreferences",
   strLit "Translation", strLit "Trial", strLit "UnifiedAssetFramework",
   strLit "Weather", strLit "WebKit"]

/-- Case-insensitive path substrings that mark transactional areas
(`IGNORED_PATH_SUBSTRINGS`). -/
def IGNORED_PATH_SUBSTRINGS : List Str :=
  [strLit "library/caches", strLit "library/news", strLit "library/finances"]

/-- `should_ignore_name`: `IGNORED_NAME_PATTERNS` is the single regex
`^\.`, so a name is ignored iff it starts with a dot. -/
def should_ignore_name (name : Str) : Bool := isInitSeq (strLit ".") name

/-- `should_ignore_path`: the lowercased path contains one of the configured
substrings. -/
def should_ignore_path (path : Str) : Bool :=
  IGNORED_PATH_SUBSTRINGS.any (fun s => containsSub s (lowerStr path))

/-! ## Scanner state

The global mutable objects of the script, gathered into one record. -/

/-- The structured content of one manual-customization summary line.  The
script stores the formatted string
`"{folder}: {immediate_count} immediate items, {file_count} files total, {hr_size}"`;
the embedding keeps the fields from which that string is formatted
(`human_readable_size` renders `total_size` with floating-point division,
which is presentation only and is not modelled). -/
structure ManualRec where
  folder : Str
  immediateCount : Nat
  fileCount : Nat
  totalSize : Nat
deriving DecidableEq, Inhabited

/-- All global data objects of the scanner. -/
structure ScanState where
  /-- `scanned_paths` (a Python `set` of normalized paths). -/
  reg : List Str
  /-- `global_system_custom_apps` (list of `.app` basenames). -/
  customApps : List Str
  /-- `global_system_brew_apps` (list of `.app` basenames). -/
  brewApps : List Str
  /-- `global_brew_formulas`. -/
  brewFormulas : List Str
  /-- `global_user_manual`: username -> summaries of included folders. -/
  userManual : List (Str × List ManualRec)
  /-- `global_user_gray`: username -> (path within home -> shallow listing). -/
  userGray : List (Str × List (Str × List Str))
  /-- `global_top_level_gray`: directory -> shallow listing. -/
  topGray : List (Str × List Str)
  /-- `global_remaining_gray`: directory -> shallow listing. -/
  remainingGray : List (Str × List Str)
  /-- `global_ignored_paths` (a Python `set`). -/
  ignored : List Str
deriving DecidableEq, Inhabited

/-- The initial state: every global starts empty. -/
def initState : ScanState :=
  { reg := [], customApps := [], brewApps := [], brewFormulas := [],
    userManual := [], userGray := [], topGray := [], remainingGray := [],
    ignored := [] }

/-- Python dict assignment `m[k] = v` (insertion-ordered: replaces the
binding of `k` when present — keys are unique in a dict — and appends a new
binding otherwise). -/
def assocSet {β : Type} : List (Str × β) → Str → β → List (Str × β)
  | [], k, v => [(k, v)]
  | e :: rest, k, v =>
    if e.1 = k then (k, v) :: rest else e :: assocSet rest k v

/-- Python dict lookup `m[k]` (`none` when the key is missing). -/
def assocGet {β : Type} (m : List (Str × β)) (k : Str) : Option β :=
  match m.find? (fun e => e.1 = k) with
  | some e => some e.2
  | none => none

/-- Membership of `k` in the keys of `m`. -/
def assocHasKey {β : Type} (m : List (Str × β)) (k : Str) : Bool :=
  (m.map (fun e => e.1)).contains k

/-- Python's stable `list.sort()` on strings, as insertion sort with
lexicographic code-point order. -/
def insLe (le : Str → Str → Bool) (a : Str) : List Str → List Str
  | [] => [a]
  | b :: rest => if le a b then a :: b :: rest else b :: insLe le a rest

/-- Lexicographic code-point order on strings (`a <= b` in Python). -/
def strLe (a b : Str) : Bool :=
  match a, b with
  | [], _ => true
  | _ :: _, [] => false
  | x :: xs, y :: ys =>
    if x = y then strLe xs ys else decide (x.toNat < y.toNat)

/-- `list.sort()`. -/
def sortStrs (l : List Str) : List Str := l.foldr (insLe strLe) []

/-! ## Registry and record operations -/

/-- `register_scanned_path`: add the normalized path to `scanned_paths`.
`List.insert` is a no-op on an already-present element, exactly like
`set.add`. -/
def register_scanned_path (reg : List Str) (path : Str) : List Str :=
  reg.insert (normpath path)

/-- `scanned_path_exists_as_subdirectory`: some registered path extends
`path + os.sep` as a string prefix. -/
def scanned_path_exists_as_subdirectory (reg : List Str) (path : Str) :
    Bool :=
  reg.any (fun scanned => isInitSeq (path ++ [Char.ofNat 47]) scanned)

/-- `record_ignore_path`: register the path and add it (unnormalized, as in
the source) to `global_ignored_paths`. -/
def record_ignore_path (st : ScanState) (path : Str) : ScanState :=
  { st with reg := register_scanned_path st.reg path,
            ignored := st.ignored.insert path }

/-- The three classification outcomes of `record_application`. -/
inductive AppDecision where
  | brew
  | whitelisted
  | custom
deriving DecidableEq

/-- The pure classification decision of `record_application` for the entry
`item` (`base = item[:-4]`; a case-insensitive cask match wins, then the
default-apps whitelist, then custom). -/
def appDecision (item : Str) (brew_casks : List Str) : AppDecision :=
  let base := item.take (item.length - 4)
  if brew_casks.any (fun cask => lowerStr base = lowerStr cask) then .brew
  else if DEFAULT_APPS_WHITELIST.contains base then .whitelisted
  else .custom

/-- `record_application`: register the bundle path, then classify it into
brew casks, the ignored whitelist, or custom apps.  `full_item` is always
`/Applications/<item>`, so `basename full_item = item` and
`base = basename(full_item)[:-4]`. -/
def record_application (st : ScanState) (full_item : Str)
    (brew_casks : List Str) : ScanState :=
  let st1 := { st with reg := register_scanned_path st.reg full_item }
  match appDecision (basename full_item) brew_casks with
  | .brew => { st1 with brewApps := st1.brewApps ++ [basename full_item] }
  | .whitelisted => record_ignore_path st1 full_item
  | .custom => { st1 with customApps := st1.customApps ++ [basename full_item] }

/-- `record_top_level_gray`: register the path and store its shallow
non-hidden listing (an unreadable directory contributes `[]`, from the
`except` clause). -/
def record_top_level_gray (fs : FS) (st : ScanState) (full_path : Str) :
    ScanState :=
  let items := ((listdirAt fs full_path).getD []).filter
    (fun i => !should_ignore_name i)
  { st with reg := register_scanned_path st.reg full_path,
            topGray := assocSet st.topGray full_path items }

/-- `record_user_gray`: register `record_path`, compute the portion of the
path below `/Users/<user>` and store the shallow non-hidden listing under
that key for the user (an unreadable directory contributes `[]`). -/
def record_user_gray (fs : FS) (st : ScanState) (user record_path : Str) :
    ScanState :=
  let user_path := strLit "/Users/" ++ user
  let path_within_user := record_path.drop user_path.length
  let contents := ((listdirAt fs record_path).getD []).filter
    (fun c => !should_ignore_name c)
  let inner := (assocGet st.userGray user).getD []
  { st with reg := register_scanned_path st.reg record_path,
            userGray := assocSet st.userGray user
              (assocSet inner path_within_user contents) }

/-! ## `get_directory_summary`

`os.walk(path, topdown=True)` with hidden directories pruned from descent,
hidden files skipped, and `os.path.getsize` failures skipped.  With the
default `onerror=None`, an unreadable directory silently contributes
nothing; symbolic links below the start are listed but never followed
(`followlinks=False`), while the start itself is resolved by `scandir`.
The per-directory filtering of the source is rendered as a guard on each
child (the summed result is identical, addition being commutative and
`(0,0)`-neutral). -/

mutual

/-- Recursive file count and byte total of one node, as `get_directory_summary`
computes it. -/
def dirSummaryNode : FS → Nat × Nat
  | .file _ => (0, 0)
  | .link t => dirSummaryNode t
  | .dir false _ => (0, 0)
  | .dir true cs =>
    let own := dirSummaryFiles cs
    let sub := dirSummaryKids cs
    (own.1 + sub.1, own.2 + sub.2)

/-- Contribution of the non-directory entries of one listing: each
non-hidden entry whose `getsize` succeeds adds one file and its size. -/
def dirSummaryFiles : List (Str × FS) → Nat × Nat
  | [] => (0, 0)
  | (n, c) :: rest =>
    let acc := dirSummaryFiles rest
    if isdirB c ∨ should_ignore_name n then acc
    else
      match resolveFS c with
      | .file sz => (acc.1 + 1, acc.2 + sz)
      | _ => acc

/-- Contribution of the subdirectories of one listing: non-hidden directory
entries that are not symbolic links are walked recursively. -/
def dirSummaryKids : List (Str × FS) → Nat × Nat
  | [] => (0, 0)
  | (n, c) :: rest =>
    let here :=
      if isdirB c ∧ ¬should_ignore_name n ∧ ¬islinkB c then dirSummaryNode c
      else (0, 0)
    let acc := dirSummaryKids rest
    (here.1 + acc.1, here.2 + acc.2)

end

/-- `get_directory_summary(path)` — `(file_count, total_size)`; a missing
path yields nothing, as `os.walk` of it is empty. -/
def get_directory_summary (fs : FS) (path : Str) : Nat × Nat :=
  match statPath fs path with
  | some n => dirSummaryNode n
  | none => (0, 0)

/-! ## Gathering functions -/

/-- `"/Applications"`. -/
def appsPath : Str := strLit "/Applications"

/-- `"/Users"`. -/
def usersDir : Str := strLit "/Users"

/-- `gather_system_applications`: list `/Applications` and classify every
top-level `.app` bundle; both result lists are sorted at the end.  The
`os.listdir` call is guarded by `os.path.isdir` but wrapped in no
`try/except`, so a permission error there propagates out of `main` and
kills the run — modelled by the `none` result. -/
def gather_system_applications (fs : FS) (brew_casks : List Str)
    (st : ScanState) : Option ScanState :=
  let step :=
    if isdirAt fs appsPath then
      match listdirAt fs appsPath with
      | none => none
      | some items =>
        some (items.foldl
          (fun s item =>
            if endsWithStr (strLit ".app") item then
              record_application s (pjoin appsPath item) brew_casks
            else s) st)
    else some st
  match step with
  | none => none
  | some st' =>
    some { st' with customApps := sortStrs st'.customApps,
                    brewApps := sortStrs st'.brewApps }

/-- `gather_brew_formulas`: store the (sorted) externally supplied list of
brew leaves. -/
def gather_brew_formulas (formulas : List Str) (st : ScanState) : ScanState :=
  { st with brewFormulas := sortStrs formulas }

/-- `record_user_manual_customization`: register the target, count its
immediate non-hidden entries (an unreadable listing counts as `0`, from the
`except` clause), compute the recursive summary, and append the record for
the user. -/
def record_user_manual_customization (fs : FS) (st : ScanState)
    (user folder target : Str) : ScanState :=
  let immediateCount :=
    match listdirAt fs target with
    | some items => (items.filter (fun i => !should_ignore_name i)).length
    | none => 0
  let sum := get_directory_summary fs target
  let prev := (assocGet st.userManual user).getD []
  { st with reg := register_scanned_path st.reg target,
            userManual := assocSet st.userManual user
              (prev ++ [⟨folder, immediateCount, sum.1, sum.2⟩]) }

/-- The per-user body of `gather_user_manual_customizations`: skip
non-directories and the `shared`/`guest` owners, then summarize each
existing included folder. -/
def userManualStep (fs : FS) (st : ScanState) (user : Str) : ScanState :=
  let user_path := pjoin usersDir user
  if ¬isdirAt fs user_path ∨
      (lowerStr user = strLit "shared" ∨ lowerStr user = strLit "guest") then
    st
  else
    INCLUDE_USER_FOLDERS.foldl
      (fun s folder =>
        let target := pjoin user_path folder
        if isdirAt fs target then
          record_user_manual_customization fs s user folder target
        else s) st

/-- `gather_user_manual_customizations`: reset `global_user_manual`, then
summarize the included folders of every user.  The whole loop sits in a
`try/except Exception: pass`; the only statement in it that can raise is the
initial `os.listdir("/Users")`, so a failure there skips everything. -/
def gather_user_manual_customizations (fs : FS) (st : ScanState) : ScanState :=
  let st0 := { st with userManual := [] }
  match listdirAt fs usersDir with
  | none => st0
  | some users => users.foldl (userManualStep fs) st0

/-! ## `gather_user_gray_area`

The whole user loop sits in one `try/except Exception: pass`.  Two inner
statements can raise: `os.listdir(scan_path)` (a gray folder that is a
directory but unreadable) and `os.listdir(user_path)` (an unreadable home).
A raise there is caught at the *function* level, abandoning the remaining
folders and the remaining users while keeping the state accumulated so far
— modelled with `Except ScanState` whose `error` carries the partial
state. -/

/-- The per-item body of the gray-folder scan (`A`-branch of the source):
members of `IGNORE_USER_FOLDERS` and `com.*` names are recorded as ignored,
any other immediate subdirectory is recorded as user gray area. -/
def userGrayScanItem (fs : FS) (user scan_path : Str) (st : ScanState)
    (item : Str) : ScanState :=
  if IGNORE_USER_FOLDERS.contains item ∨ isInitSeq (strLit "com.") item then
    record_ignore_path st (pjoin scan_path item)
  else
    let target := pjoin scan_path item
    if isdirAt fs target then record_user_gray fs st user target else st

/-- The per-item body of the home-directory scan (`B`-branch of the
source): members of the include and ignore lists are skipped, any other
immediate subdirectory is recorded as user gray area. -/
def userHomeScanItem (fs : FS) (user user_path : Str) (st : ScanState)
    (item : Str) : ScanState :=
  if INCLUDE_USER_FOLDERS.contains item ∨ IGNORE_USER_FOLDERS.contains item
  then st
  else
    let target := pjoin user_path item
    if isdirAt fs target then record_user_gray fs st user target else st

/-- One gray scan location of one user: list it if it is a directory, fold
the item body over the listing; a raised listing error aborts (`.error`). -/
def userGrayFolderStep (fs : FS) (user user_path : Str) (st : ScanState)
    (gray_folder : Str) : Except ScanState ScanState :=
  let scan_path := pjoin user_path gray_folder
  if isdirAt fs scan_path then
    match listdirAt fs scan_path with
    | none => .error st
    | some items => .ok (items.foldl (userGrayScanItem fs user scan_path) st)
  else .ok st

/-- Fold a step that may abort over a list, propagating the abort. -/
def exceptFold {α : Type} (f : ScanState → α → Except ScanState ScanState) :
    List α → ScanState → Except ScanState ScanState
  | [], st => .ok st
  | a :: rest, st =>
    match f st a with
    | .ok st' => exceptFold f rest st'
    | .error st' => .error st'

/-- The per-user body of `gather_user_gray_area`: skip non-directories and
`shared`/`guest`, scan the gray locations, then the home directory. -/
def userGrayUserStep (fs : FS) (st : ScanState) (user : Str) :
    Except ScanState ScanState :=
  let user_path := pjoin usersDir user
  if ¬isdirAt fs user_path ∨
      (lowerStr user = strLit "shared" ∨ lowerStr user = strLit "guest") then
    .ok st
  else
    match exceptFold (userGrayFolderStep fs user user_path)
        SCAN_USER_GRAY_AREA_FOLDERS st with
    | .error st' => .error st'
    | .ok st' =>
      match listdirAt fs user_path with
      | none => .error st'
      | some items =>
        .ok (items.foldl (userHomeScanItem fs user user_path) st')

/-- `gather_user_gray_area`: scan every user, swallowing a raised listing
error at the function level (`except Exception: pass`). -/
def gather_user_gray_area (fs : FS) (st : ScanState) : ScanState :=
  match listdirAt fs usersDir with
  | none => st
  | some users =>
    match exceptFold (fun s u => userGrayUserStep fs s u) users st with
    | .ok st' => st'
    | .error st' => st'

/-- The per-entry body of `gather_top_level_gray_area`: an immediate child
directory of `/` is skipped when its full path has a member of
`IGNORED_ROOT_DIRS` or `INCLUDE_ROOT_DIRS` as a string prefix
(`full_path.startswith(ig)`), and recorded as top-level gray otherwise. -/
def topLevelEntryStep (fs : FS) (st : ScanState) (entry : Str) : ScanState :=
  let full_path := pjoin (strLit "/") entry
  if isdirAt fs full_path then
    if IGNORED_ROOT_DIRS.any (fun ig => isInitSeq ig full_path) ∨
        INCLUDE_ROOT_DIRS.any (fun ig => isInitSeq ig full_path) then st
    else record_top_level_gray fs st full_path
  else st

/-- `gather_top_level_gray_area`: the directory children of `/` not
prefix-excluded are recorded; the only raising statement under the
`try/except` is `os.listdir("/")`. -/
def gather_top_level_gray_area (fs : FS) (st : ScanState) : ScanState :=
  match listdirAt fs (strLit "/") with
  | none => st
  | some entries => entries.foldl (topLevelEntryStep fs) st

/-! ## The crawl engine (`crawl_remaining_paths`)

`os.walk(base, topdown=True)` is embedded as a recursion over the tree.
For each walk root: a symbolic-link root executes `continue` (which leaves
`dirs` unpruned, so the walk still descends into its non-link directory
children — reachable only when the crawl base itself is a link); an
already-registered root clears `dirs` and stops; otherwise the files loop
only prints (no state change, not modelled) and each child directory is
classified, gray-recording the `Record` ones and collecting the
`Drill`/`Symlink` ones into `new_dirs`; the walk then recurses into the
`new_dirs` entries that are not symbolic links (`followlinks=False`). -/

/-- The four crawl states of one directory.  `symlink` is a child selected
for `new_dirs` that `os.walk` then refuses to follow. -/
inductive CrawlState where
  | skip
  | symlink
  | drill
  | record
deriving DecidableEq

/-- The classification the crawl gives a child directory, given whether it
is registered, whether a registered path lies strictly under it, and
whether it is a symbolic link.  Mirrors the `if/elif/else` chain of
`crawl_remaining_paths` (lines 161–184) combined with `os.walk`'s
link-descent refusal; note the `record` branch of the source never
consults `islink`. -/
def classifyDir (registered hasDesc link : Bool) : CrawlState :=
  if registered then .skip
  else if hasDesc then (if link then .symlink else .drill)
  else .record

/-- The `Record` action of the crawl: routed to the per-user map when the
path starts with `"/Users/"` (owner = `normalized_d.split("/")[2]`), else
to the top-level map. -/
def crawlRecordRoute (fs : FS) (st : ScanState) (nd : Str) : ScanState :=
  if isInitSeq (strLit "/Users/") nd then
    record_user_gray fs st ((splitSlash nd).getD 2 []) nd
  else record_top_level_gray fs st nd

/-- Processing of one entry of the child-directory loop: compute the
normalized full path, classify, and either skip, append to `new_dirs`, or
record. -/
def procChild (fs : FS) (root : Str) (acc : ScanState × List (Str × FS))
    (e : Str × FS) : ScanState × List (Str × FS) :=
  let nd := normpath (pjoin root e.1)
  match classifyDir (acc.1.reg.contains nd)
      (scanned_path_exists_as_subdirectory acc.1.reg nd) (islinkB e.2) with
  | .skip => acc
  | .drill => (acc.1, acc.2 ++ [e])
  | .symlink => (acc.1, acc.2 ++ [e])
  | .record => (crawlRecordRoute fs acc.1 nd, acc.2)

/-- Size bound used by the termination argument of the crawl recursion. -/
theorem sizeOf_le_of_entrySublist {l m : List (Str × FS)} (h : l.Sublist m) :
    sizeOf l ≤ sizeOf m := by
  induction h with
  | slnil => simp
  | cons a h ih => simp; omega
  | cons₂ a h ih => simp; omega

/-- The `new_dirs` list built by the child loop is a sublist of the child
entries handed to it (termination bound for the crawl recursion). -/
theorem procChild_foldl_sublist (fs : FS) (root : Str)
    (l : List (Str × FS)) :
    ∀ acc : ScanState × List (Str × FS),
      (l.foldl (procChild fs root) acc).2.Sublist (acc.2 ++ l) := by
  induction l with
  | nil => intro acc; simp
  | cons a as ih =>
    intro acc
    simp only [List.foldl_cons]
    refine (ih (procChild fs root acc a)).trans ?_
    have hstep : (procChild fs root acc a).2.Sublist (acc.2 ++ [a]) := by
      unfold procChild
      dsimp only
      split <;> simp
    have := hstep.append_right as
    simpa using this

mutual

/-- One walk root of `crawl_remaining_paths`.  A non-directory root yields
nothing; an unreadable directory root raises in `scandir` and (with
`onerror=None`) yields nothing; a registered root sets `dirs[:] = []` and
stops; otherwise the children are classified by `procChild` (the files loop
of the source only prints) and the walk recurses into the collected
`new_dirs`. -/
def crawlNode (fs : FS) (st : ScanState) (root : Str) : FS → ScanState
  | .file _ => st
  | .dir false _ => st
  | .dir true cs =>
    if st.reg.contains (normpath root) then st
    else
      let out := (cs.filter (fun e => isdirB e.2)).foldl
        (procChild fs root) (st, [])
      crawlGo fs out.1 root out.2
  | .link t => crawlLinkRoot fs st root t
termination_by node => sizeOf node
decreasing_by
  all_goals simp_wf
  all_goals
    have h1 := procChild_foldl_sublist fs root
      (cs.filter (fun e => isdirB e.2)) (st, [])
    simp only [List.nil_append] at h1
    have h3 := sizeOf_le_of_entrySublist h1
    have h4 := sizeOf_le_of_entrySublist
      (List.filter_sublist (l := cs) (p := fun e => isdirB e.2))
    omega

/-- The walk root is a symbolic link: the loop body executes `continue`
without touching `dirs`, so the walk still descends into the resolved
directory children that are not themselves links (only reachable when the
crawl base is a link, since `os.walk` never yields a deeper link as a
root). -/
def crawlLinkRoot (fs : FS) (st : ScanState) (root : Str) : FS → ScanState
  | .link t => crawlLinkRoot fs st root t
  | .dir true cs => crawlGo fs st root (cs.filter (fun e => isdirB e.2))
  | _ => st
termination_by node => sizeOf node
decreasing_by
  all_goals simp_wf
  all_goals
    have h4 := sizeOf_le_of_entrySublist
      (List.filter_sublist (l := cs) (p := fun e => isdirB e.2))
    omega

/-- Descent into the surviving `new_dirs`: `os.walk` with
`followlinks=False` refuses to walk into a symbolic link. -/
def crawlGo (fs : FS) (st : ScanState) (root : Str) :
    List (Str × FS) → ScanState
  | [] => st
  | (name, c) :: rest =>
    let st' := if islinkB c then st else crawlNode fs st (pjoin root name) c
    crawlGo fs st' root rest
termination_by l => sizeOf l
decreasing_by
  all_goals simp_wf
  all_goals omega

end

/-- `crawl_remaining_paths(base="/")`. -/
def crawl_remaining_paths (fs : FS) (st : ScanState) : ScanState :=
  crawlNode fs st (strLit "/") fs

/-! ### A fuel measure for evaluating the crawl -/

mutual

/-- Computable fuel measure of a tree (node count, payloads ignored). -/
def fsFuel : FS → Nat
  | .file _ => 1
  | .link t => 1 + fsFuel t
  | .dir _ cs => 1 + fsFuelL cs

/-- Fuel measure of a listing. -/
def fsFuelL : List (Str × FS) → Nat
  | [] => 1
  | (_, c) :: rest => 1 + fsFuel c + fsFuelL rest

end

/-! ### A fuel-indexed twin of the crawl

The crawl recursion above is defined by well-founded recursion, which the
kernel cannot evaluate on concrete inputs; the following structurally
recursive twin (fuel counts down on every call) computes the same function
whenever the fuel covers the size of the argument, which `crawl_by_fuel`
below proves. -/

mutual

/-- Fuel-indexed `crawlNode`. -/
def crawlNodeF : Nat → FS → ScanState → Str → FS → ScanState
  | 0, _, st, _, _ => st
  | n + 1, fs, st, root, node =>
    match node with
    | .file _ => st
    | .dir false _ => st
    | .dir true cs =>
      if st.reg.contains (normpath root) then st
      else
        let out := (cs.filter (fun e => isdirB e.2)).foldl
          (procChild fs root) (st, [])
        crawlGoF n fs out.1 root out.2
    | .link t => crawlLinkRootF n fs st root t

/-- Fuel-indexed `crawlLinkRoot`. -/
def crawlLinkRootF : Nat → FS → ScanState → Str → FS → ScanState
  | 0, _, st, _, _ => st
  | n + 1, fs, st, root, node =>
    match node with
    | .link t => crawlLinkRootF n fs st root t
    | .dir true cs => crawlGoF n fs st root (cs.filter (fun e => isdirB e.2))
    | _ => st

/-- Fuel-indexed `crawlGo`. -/
def crawlGoF : Nat → FS → ScanState → Str → List (Str × FS) → ScanState
  | 0, _, st, _, _ => st
  | n + 1, fs, st, root, l =>
    match l with
    | [] => st
    | (name, c) :: rest =>
      let st' := if islinkB c then st else crawlNodeF n fs st (pjoin root name) c
      crawlGoF n fs st' root rest

end

/-! ## The main driver and reporting -/

/-- `main()`: ignore the configured root directories, store the external
brew data, inventory `/Applications`, summarize the users' included
folders, gather the user and top-level gray areas, and crawl the remaining
paths.  `none` models the one uncaught exception path (a permission error
listing `/Applications`); report writing is I/O and is modelled only by
`remaining_gray_report_files` below. -/
def mainScan (fs : FS) (brew_casks formulas : List Str) : Option ScanState :=
  let st0 := IGNORED_ROOT_DIRS.foldl record_ignore_path initState
  let st1 := gather_brew_formulas formulas st0
  match gather_system_applications fs brew_casks st1 with
  | none => none
  | some st2 =>
    let st3 := gather_user_manual_customizations fs st2
    let st4 := gather_user_gray_area fs st3
    let st5 := gather_top_level_gray_area fs st4
    some (crawl_remaining_paths fs st5)

/-- `mainScan` with the crawl replaced by its fuel-indexed twin at fuel
`fsFuel fs` (enough fuel by `crawl_by_fuel`): a kernel-evaluable equal of
`mainScan`, proved equal in `mainScanF_eq`. -/
def mainScanF (fs : FS) (brew_casks formulas : List Str) : Option ScanState :=
  let st0 := IGNORED_ROOT_DIRS.foldl record_ignore_path initState
  let st1 := gather_brew_formulas formulas st0
  match gather_system_applications fs brew_casks st1 with
  | none => none
  | some st2 =>
    let st3 := gather_user_manual_customizations fs st2
    let st4 := gather_user_gray_area fs st3
    let st5 := gather_top_level_gray_area fs st4
    some (crawlNodeF (fsFuel fs) fs st5 (strLit "/") fs)

/-- The `safe_name` computed by `write_reports` for a gray-area report:
strip leading and trailing slashes, replace the rest by underscores,
defaulting to `"root"`. -/
def safeName (dir_path : Str) : Str :=
  let s := ((dir_path.dropWhile (fun c => c = '/')).reverse.dropWhile
    (fun c => c = '/')).reverse
  if s = [] then strLit "root"
  else s.map (fun c => if c = '/' then '_' else c)

/-- The `"<safe_name>_remaining_gray.txt"` files `write_reports` would
create — one per entry of `global_remaining_gray`. -/
def remaining_gray_report_files (st : ScanState) : List Str :=
  st.remainingGray.map (fun e => safeName e.1 ++ strLit "_remaining_gray.txt")

/-! ## Classification-record buckets

The spec's Report Aggregator interface groups the classification records by
subject path: `ManualSummary` folder paths (reconstructed exactly as
`record_user_manual_customization` builds its `target`), `GrayListing`
directory paths (per-user keys are stored relative to `/Users/<user>`, so
the subject path is the user prefix re-attached; top-level and remaining
keys are the paths themselves), the `Ignored` set, and the application
inventory (which stores `.app` basenames of `/Applications` children). -/

/-- `p` is the folder path of some recorded `ManualSummary`. -/
def manualPathB (st : ScanState) (p : Str) : Bool :=
  st.userManual.any (fun e =>
    e.2.any (fun r => p = pjoin (pjoin usersDir e.1) r.folder))

/-- `p` is the directory path of some per-user `GrayListing`. -/
def userGrayPathB (st : ScanState) (p : Str) : Bool :=
  st.userGray.any (fun e =>
    e.2.any (fun kv => p = strLit "/Users/" ++ e.1 ++ kv.1))

/-- `p` is the directory path of some top-level `GrayListing`. -/
def topGrayKeyB (st : ScanState) (p : Str) : Bool :=
  st.topGray.any (fun e => p = e.1)

/-- `p` is the directory path of some remaining-gray `GrayListing`. -/
def remainingGrayKeyB (st : ScanState) (p : Str) : Bool :=
  st.remainingGray.any (fun e => p = e.1)

/-- `p` is the directory path of some `GrayListing` (any of the three gray
maps). -/
def grayPathB (st : ScanState) (p : Str) : Bool :=
  userGrayPathB st p || topGrayKeyB st p || remainingGrayKeyB st p

/-- `p` is in the `Ignored` set. -/
def ignoredPathB (st : ScanState) (p : Str) : Bool := st.ignored.contains p

/-- `p` is the bundle path of some recorded application (custom or brew). -/
def appPathB (st : ScanState) (p : Str) : Bool :=
  (st.customApps ++ st.brewApps).any (fun b => p = pjoin appsPath b)

/-- In how many of the three buckets named by the spec (`ManualSummary`
folder paths, `GrayListing` directory paths, the `Ignored` set) does `p`
lie. -/
def bucketCount3 (st : ScanState) (p : Str) : Nat :=
  (if manualPathB st p then 1 else 0) + (if grayPathB st p then 1 else 0) +
    (if ignoredPathB st p then 1 else 0)

/-- As `bucketCount3`, with the application inventory as a fourth bucket. -/
def bucketCount4 (st : ScanState) (p : Str) : Nat :=
  bucketCount3 st p + (if appPathB st p then 1 else 0)

/-- `b` strictly extends `a` as a segment sequence (the spec's strict
descendant relation on paths). -/
def strictlyExtends (a b : List Str) : Bool :=
  isInitSeq a b && decide (a.length < b.length)

/-- The shallow listing stored for key `k` of user `u`, if any. -/
def userGrayGet (st : ScanState) (u k : Str) : Option (List Str) :=
  match assocGet st.userGray u with
  | some m => assocGet m k
  | none => none

/-! ## Concrete fixtures for counterexamples and witnesses -/

/-- A root with a single non-whitelisted application bundle. -/
def fsApp : FS :=
  .dir true [(strLit "Applications",
    .dir true [(strLit "Foo.app", .dir true [])])]

/-- The final state of the run of `mainScan` on `fsApp` with no casks
(written with the kernel-evaluable `mainScanF`; `mainScanF_eq` identifies
the two). -/
def stApp : ScanState := (mainScanF fsApp [] []).getD initState

/-- A root whose only child is a symbolic link to a directory. -/
def fsLink : FS :=
  .dir true [(strLit "Link",
    .link (.dir true [(strLit "inner", .file 1)]))]

/-- Two users: `alice` has an unreadable `Documents`, `bob` has a gray
candidate `Projects`. -/
def fsTwoUsers : FS :=
  .dir true [(strLit "Users", .dir true [
    (strLit "alice", .dir true [(strLit "Documents", .dir false [])]),
    (strLit "bob", .dir true [(strLit "Projects", .dir true [])])])]

/-- A root with one directory child whose name has `"/Volumes"` as a
prefix without being a member of either root list. -/
def fsVolumesBackup : FS :=
  .dir true [(strLit "VolumesBackup", .dir true [])]

/-- A root with one plain directory child `Data`. -/
def fsData : FS :=
  .dir true [(strLit "Data", .dir true [(strLit "x.txt", .file 3)])]

/-- One user with a hidden directory inside `Documents`. -/
def fsHidden : FS :=
  .dir true [(strLit "Users", .dir true [
    (strLit "u", .dir true [(strLit "Documents",
      .dir true [(strLit ".secret", .dir true [])])])])]

/-! ## Invariants -/

/-- Partition invariant: every registered path lies in exactly one of the
four record buckets. -/
def PartInv (st : ScanState) : Prop := ∀ p ∈ st.reg, bucketCount4 st p = 1

/-- Coupling invariant: every bucket path is registered. -/
def CoupInv (st : ScanState) : Prop := ∀ p, bucketCount4 st p ≠ 0 → p ∈ st.reg

/-- The conjunction of the two run invariants. -/
def ScanInv (st : ScanState) : Prop := PartInv st ∧ CoupInv st

/-- A state progresses to another: the registry only grows (`scanned_paths`
never shrinks) and `global_remaining_gray` is untouched (nothing in the
program ever writes to it — its one assignment is commented out). -/
def Progresses (s s' : ScanState) : Prop :=
  s.reg ⊆ s'.reg ∧ s'.remainingGray = s.remainingGray

/-- The ignore test of the per-user gray-folder scan (`A`-branch):
`item in IGNORE_USER_FOLDERS or item.startswith("com.")`. -/
def ignDec (item : Str) : Bool :=
  IGNORE_USER_FOLDERS.contains item || isInitSeq (strLit "com.") item

/-- Shape of every `ManualSummary` folder path. -/
def ShapeManual (q : Str) : Prop :=
  ∃ u f, CleanName u ∧ f ∈ INCLUDE_USER_FOLDERS ∧
    q = pjoin (pjoin usersDir u) f

/-- Shape of every `Ignored` path recorded before the crawl: a configured
root, a whitelisted `/Applications` bundle (two segments), or an ignored
item of a per-user gray scan location (four or five segments whose
basename passes the ignore test). -/
def ShapeIgn (casks : List Str) (q : Str) : Prop :=
  q ∈ IGNORED_ROOT_DIRS ∨
  (countSlash q = 2 ∧ ∀ it, CleanName it → q = pjoin appsPath it →
    appDecision it casks = .whitelisted) ∨
  ((countSlash q = 4 ∨ countSlash q = 5) ∧ ignDec (basename q) = true)

/-- Shape of every recorded application bundle path: two segments, and the
bundle's classification decision is not the whitelist. -/
def ShapeApp (casks : List Str) (q : Str) : Prop :=
  countSlash q = 2 ∧ ∀ it, CleanName it → q = pjoin appsPath it →
    appDecision it casks ≠ .whitelisted

/-- Shape of every `GrayListing` path recorded before the crawl: a
non-excluded root child (one segment), a home-directory child not in the
include or ignore lists (three segments), or a gray-scan-location child
failing the ignore test (four or five segments). -/
def ShapeGray (q : Str) : Prop :=
  (countSlash q = 1 ∧ ((IGNORED_ROOT_DIRS ++ INCLUDE_ROOT_DIRS).all
    (fun ig => !isInitSeq ig q)) = true) ∨
  (countSlash q = 3 ∧ ¬INCLUDE_USER_FOLDERS.contains (basename q) ∧
    ¬IGNORE_USER_FOLDERS.contains (basename q)) ∨
  ((countSlash q = 4 ∨ countSlash q = 5) ∧ ignDec (basename q) = false)

/-- The composite invariant carried through the data-gathering phases: the
partition and coupling invariants plus the shape of every bucket member.
The crawl phase preserves `ScanInv` alone. -/
def MidInv (casks : List Str) (st : ScanState) : Prop :=
  ScanInv st ∧
  (∀ q, ignoredPathB st q = true → ShapeIgn casks q) ∧
  (∀ q, appPathB st q = true → ShapeApp casks q) ∧
  (∀ q, manualPathB st q = true → ShapeManual q) ∧
  (∀ q, grayPathB st q = true → ShapeGray q)

/-! ## General lemmas about the string model -/

theorem isInitSeq_length {α : Type} [DecidableEq α] :
    ∀ {p l : List α}, isInitSeq p l = true → p.length ≤ l.length := by
  intro p
  induction p with
  | nil => intro l _; simp
  | cons a as ih =>
    intro l h
    cases l with
    | nil => simp [isInitSeq] at h
    | cons b bs =>
      simp only [isInitSeq, Bool.and_eq_true, decide_eq_true_eq] at h
      have := ih h.2
      simp only [List.length_cons]
      omega

theorem isInitSeq_append {α : Type} [DecidableEq α] :
    ∀ (p r : List α), isInitSeq p (p ++ r) = true := by
  intro p r
  induction p with
  | nil => simp [isInitSeq]
  | cons a as ih => simp [isInitSeq, ih]

theorem isInitSeq_iff_append {α : Type} [DecidableEq α] {p l : List α} :
    isInitSeq p l = true ↔ ∃ r, l = p ++ r := by
  constructor
  · intro h
    induction p generalizing l with
    | nil => exact ⟨l, rfl⟩
    | cons a as ih =>
      cases l with
      | nil => simp [isInitSeq] at h
      | cons b bs =>
        simp only [isInitSeq, Bool.and_eq_true, decide_eq_true_eq] at h
        obtain ⟨r, hr⟩ := ih h.2
        exact ⟨r, by simp [h.1, hr]⟩
  · rintro ⟨r, rfl⟩
    exact isInitSeq_append p r

theorem isInitSeq_self_append_ne {α : Type} [DecidableEq α] (s : List α)
    (a : α) : isInitSeq (s ++ [a]) s = false := by
  by_contra h
  have h2 : isInitSeq (s ++ [a]) s = true := by
    cases hb : isInitSeq (s ++ [a]) s
    · exact absurd hb h
    · rfl
  have := isInitSeq_length h2
  simp at this

theorem splitSlash_ne_nil : ∀ s : Str, splitSlash s ≠ [] := by
  intro s
  induction s with
  | nil => simp [splitSlash]
  | cons c rest ih =>
    rw [splitSlash]
    split
    · simp
    · rcases h : splitSlash rest with _ | ⟨h1, t1⟩
      · simp
      · simp

theorem splitSlash_no_slash : ∀ s : Str, '/' ∉ s → splitSlash s = [s] := by
  intro s
  induction s with
  | nil => intro _; rfl
  | cons c rest ih =>
    intro h
    have hc : c ≠ '/' := fun hc => h (by simp [hc])
    have hr : '/' ∉ rest := fun hr => h (by simp [hr])
    rw [splitSlash, if_neg hc, ih hr]

theorem splitSlash_append_slash : ∀ s t : Str, '/' ∉ s →
    splitSlash (s ++ '/' :: t) = s :: splitSlash t := by
  intro s
  induction s with
  | nil => intro t _; simp [splitSlash]
  | cons c rest ih =>
    intro t h
    have hc : c ≠ '/' := fun hc => h (by simp [hc])
    have hr : '/' ∉ rest := fun hr => h (by simp [hr])
    simp only [List.cons_append]
    rw [splitSlash, if_neg hc, ih t hr]

theorem interSlash_cons (s : Str) (rest : List Str) (h : rest ≠ []) :
    interSlash (s :: rest) = s ++ '/' :: interSlash rest := by
  cases rest with
  | nil => exact absurd rfl h
  | cons b bs => rfl

theorem interSlash_append : ∀ (xs ys : List Str), xs ≠ [] → ys ≠ [] →
    interSlash (xs ++ ys) = interSlash xs ++ '/' :: interSlash ys := by
  intro xs
  induction xs with
  | nil => intro ys h _; exact absurd rfl h
  | cons a as ih =>
    intro ys _ hy
    cases has : as with
    | nil =>
      simp only [List.cons_append, List.nil_append]
      rw [interSlash_cons a ys hy]
      rfl
    | cons b bs =>
      rw [List.cons_append, interSlash_cons a _ (by simp [has]),
          interSlash_cons a _ (by simp [has]), ← has,
          ih ys (by simp [has]) hy]
      simp

theorem splitSlash_interSlash : ∀ segs : List Str, segs ≠ [] →
    (∀ s ∈ segs, '/' ∉ s) → splitSlash (interSlash segs) = segs := by
  intro segs
  induction segs with
  | nil => intro h; exact absurd rfl h
  | cons a as ih =>
    intro _ hall
    cases has : as with
    | nil =>
      rw [interSlash]
      exact splitSlash_no_slash a (hall a (by simp))
    | cons b bs =>
      subst has
      rw [interSlash_cons a _ (by simp),
        splitSlash_append_slash a _ (hall a (by simp)),
        ih (by simp) (fun s hs => hall s (by simp [hs]))]

theorem splitSlash_joinSegs (segs : List Str) (hne : segs ≠ [])
    (h : ∀ s ∈ segs, '/' ∉ s) : splitSlash (joinSegs segs) = [] :: segs := by
  rw [joinSegs, splitSlash, if_pos rfl, splitSlash_interSlash segs hne h]

theorem foldl_normStep_clean : ∀ (segs : List Str) (acc : List Str),
    CleanSegs segs → (segs.foldl normStep acc) = acc ++ segs := by
  intro segs
  induction segs with
  | nil => intro acc _; simp
  | cons a as ih =>
    intro acc hc
    have ha : CleanName a := hc a (by simp)
    obtain ⟨h1, _, h3, h4⟩ := ha
    simp only [List.foldl_cons]
    rw [show normStep acc a = acc ++ [a] by
      rw [normStep, if_neg (by simp [h1, h3]), if_neg h4]]
    rw [ih (acc ++ [a]) (fun s hs => hc s (by simp [hs]))]
    simp

theorem normpath_joinSegs (segs : List Str) (h : CleanSegs segs) :
    normpath (joinSegs segs) = joinSegs segs := by
  cases hs : segs with
  | nil => subst hs; rfl
  | cons a as =>
    subst hs
    rw [normpath, splitSlash_joinSegs _ (by simp) (fun s hms => (h s hms).2.1),
      List.foldl_cons, show normStep [] [] = [] from rfl,
      foldl_normStep_clean _ [] h, List.nil_append]

theorem getLast?_append_clean (z : Str) (hz : CleanName z) (l : List Char) :
    (l ++ z).getLast? ≠ some '/' := by
  obtain ⟨h1, h2, _, _⟩ := hz
  rw [List.getLast?_append_of_ne_nil l h1,
    List.getLast?_eq_getLast_of_ne_nil h1]
  intro h
  have hm : z.getLast h1 ∈ z := List.getLast_mem h1
  rw [Option.some.injEq] at h
  rw [h] at hm
  exact h2 hm

theorem getLast?_joinSegs_ne_slash (xs : List Str) (hc : CleanSegs xs)
    (hne : xs ≠ []) : (joinSegs xs).getLast? ≠ some '/' := by
  induction xs using List.reverseRecOn with
  | nil => exact absurd rfl hne
  | append_singleton ys z _ =>
    have hz : CleanName z := hc z (by simp)
    by_cases h1 : ys = []
    · subst h1
      have : joinSegs ([] ++ [z]) = ['/'] ++ z := by rw [joinSegs]; rfl
      rw [this]
      exact getLast?_append_clean z hz _
    · have : joinSegs (ys ++ [z]) = ('/' :: interSlash ys ++ ['/']) ++ z := by
        rw [joinSegs, interSlash_append ys [z] h1 (by simp)]
        simp [interSlash]
      rw [this]
      exact getLast?_append_clean z hz _

theorem isInitSeq_slash_false (s : Str) (hne : s ≠ []) (hs : '/' ∉ s)
    (r : List Char) : isInitSeq (strLit "/") (s ++ r) = false := by
  cases s with
  | nil => exact absurd rfl hne
  | cons c cs =>
    have hc : c ≠ '/' := fun h => hs (by simp [h])
    have hcs : ('/' = c) = False := by
      simp only [eq_iff_iff, iff_false]
      exact fun h => hc h.symm
    simp [strLit, isInitSeq, hcs]

theorem pjoin_joinSegs (xs bs : List Str) (hxs : CleanSegs xs)
    (hbs : CleanSegs bs) (hne : bs ≠ []) :
    pjoin (joinSegs xs) (interSlash bs) = joinSegs (xs ++ bs) := by
  obtain ⟨b0, rest, rfl⟩ : ∃ b0 rest, bs = b0 :: rest := by
    cases bs with
    | nil => exact absurd rfl hne
    | cons b0 rest => exact ⟨b0, rest, rfl⟩
  have hb0 : CleanName b0 := hbs b0 (by simp)
  have hfalse : isInitSeq (strLit "/") (interSlash (b0 :: rest)) = false := by
    cases rest with
    | nil =>
      have : interSlash [b0] = b0 ++ [] := by simp [interSlash]
      rw [this]
      exact isInitSeq_slash_false b0 hb0.1 hb0.2.1 []
    | cons r rs =>
      rw [interSlash_cons b0 _ (by simp)]
      exact isInitSeq_slash_false b0 hb0.1 hb0.2.1 _
  rw [pjoin, hfalse]
  simp only [Bool.false_eq_true, if_false]
  cases hxs0 : xs with
  | nil =>
    have : joinSegs ([] : List Str) = ['/'] := rfl
    rw [this]
    simp [joinSegs]
  | cons x xs' =>
    subst hxs0
    have hgl := getLast?_joinSegs_ne_slash _ hxs (by simp)
    have hcond : ¬(joinSegs (x :: xs') = [] ∨
        (joinSegs (x :: xs')).getLast? = some '/') := by
      push_neg
      exact ⟨by simp [joinSegs], hgl⟩
    rw [if_neg hcond, joinSegs, joinSegs,
      interSlash_append (x :: xs') (b0 :: rest) (by simp) (by simp)]
    simp

theorem pjoin_joinSegs_single (xs : List Str) (b : Str) (hxs : CleanSegs xs)
    (hb : CleanName b) : pjoin (joinSegs xs) b = joinSegs (xs ++ [b]) := by
  have hbs : CleanSegs [b] := by
    intro s hs
    simp only [List.mem_singleton] at hs
    subst hs
    exact hb
  have h := pjoin_joinSegs xs [b] hxs hbs (by simp)
  exact h

theorem countSlash_interSlash : ∀ segs : List Str, segs ≠ [] →
    (∀ s ∈ segs, '/' ∉ s) →
    (interSlash segs).count '/' = segs.length - 1 := by
  intro segs
  induction segs with
  | nil => intro h; exact absurd rfl h
  | cons a as ih =>
    intro _ hall
    have ha : (a : Str).count '/' = 0 :=
      List.count_eq_zero.mpr (hall a (by simp))
    cases has : as with
    | nil => simpa [interSlash] using ha
    | cons b bs =>
      subst has
      rw [interSlash_cons a _ (by simp), List.count_append, ha]
      rw [List.count_cons_self, ih (by simp) (fun s hs => hall s (by simp [hs]))]
      simp only [List.length_cons]
      omega

theorem countSlash_joinSegs (segs : List Str) (hne : segs ≠ [])
    (h : ∀ s ∈ segs, '/' ∉ s) : countSlash (joinSegs segs) = segs.length := by
  rw [countSlash, joinSegs, List.count_cons_self,
    countSlash_interSlash segs hne h]
  cases segs with
  | nil => exact absurd rfl hne
  | cons a as => simp

theorem basename_joinSegs (xs : List Str) (b : Str) (hc : CleanSegs (xs ++ [b])) :
    basename (joinSegs (xs ++ [b])) = b := by
  rw [basename, splitSlash_joinSegs _ (by simp) (fun s hs => (hc s hs).2.1)]
  have h2 : (([] : Str) :: (xs ++ [b])) = (([] : Str) :: xs) ++ [b] := by simp
  rw [h2]
  have h3 : ((([] : Str) :: xs) ++ [b]).getLast? = some b := by
    rw [List.getLast?_append_of_ne_nil _ (by simp)]
    rfl
  rw [List.getLastD_eq_getLast?, h3]
  rfl

theorem segs_of_users_prefix (segs : List Str) (hc : CleanSegs segs)
    (h : isInitSeq (strLit "/Users/") (joinSegs segs) = true) :
    ∃ u rest, segs = strLit "Users" :: u :: rest := by
  obtain ⟨r, hr⟩ := isInitSeq_iff_append.mp h
  cases segs with
  | nil =>
    have := isInitSeq_length h
    simp [joinSegs, interSlash, strLit] at this
  | cons s t =>
    have hsp := splitSlash_joinSegs (s :: t) (by simp)
      (fun x hx => (hc x hx).2.1)
    rw [hr] at hsp
    have hru : strLit "/Users/" ++ r = strLit "/Users" ++ '/' :: r := rfl
    rw [hru] at hsp
    have hsp2 : splitSlash (strLit "/Users" ++ '/' :: r) =
        [] :: strLit "Users" :: splitSlash r := by
      have : strLit "/Users" ++ '/' :: r = '/' :: (strLit "Users" ++ '/' :: r) := rfl
      rw [this, splitSlash, if_pos rfl,
        splitSlash_append_slash (strLit "Users") r (by decide)]
    rw [hsp2] at hsp
    have h1 : s = strLit "Users" := by
      have := congrArg (fun l => l.get? 1) hsp
      simpa using this.symm
    cases t with
    | nil =>
      exfalso
      have := congrArg List.length hsp
      simp at this
      have h3 := splitSlash_ne_nil r
      cases hsr : splitSlash r with
      | nil => exact h3 hsr
      | cons a b => rw [hsr] at this; simp at this
    | cons u rest => exact ⟨u, rest, by rw [h1]⟩

/-! ## Lemmas about the registry, the dictionaries and the record operations -/

theorem mem_register (reg : List Str) (p q : Str) :
    q ∈ register_scanned_path reg p ↔ q = normpath p ∨ q ∈ reg := by
  rw [register_scanned_path]
  exact List.mem_insert_iff

theorem register_mono (reg : List Str) (p : Str) :
    reg ⊆ register_scanned_path reg p := by
  intro q hq
  rw [mem_register]
  right
  exact hq

theorem containsStr_iff (l : List Str) (q : Str) :
    l.contains q = true ↔ q ∈ l := by
  simp [List.contains]

theorem assocGet_cons {β : Type} (e : Str × β) (rest : List (Str × β))
    (k : Str) :
    assocGet (e :: rest) k = if e.1 = k then some e.2 else assocGet rest k := by
  rw [assocGet]
  by_cases h : e.1 = k
  · rw [List.find?_cons_of_pos _ (by simp [h]), if_pos h]
  · rw [List.find?_cons_of_neg _ (by simp [h]), if_neg h, assocGet]

theorem assocSet_any_key {β : Type} (m : List (Str × β)) (k : Str) (v : β)
    (P : Str → Bool) :
    (assocSet m k v).any (fun e => P e.1) =
      (P k || m.any (fun e => P e.1)) := by
  induction m with
  | nil => simp [assocSet]
  | cons e rest ih =>
    rw [assocSet]
    by_cases h : e.1 = k
    · rw [if_pos h]
      simp only [List.any_cons, h]
      cases P k <;> simp
    · rw [if_neg h]
      simp only [List.any_cons, ih]
      cases P e.1 <;> cases P k <;> simp

theorem manual_update_any (m : List (Str × List ManualRec)) (u : Str)
    (rec : ManualRec) (P : Str → ManualRec → Bool) :
    ((assocSet m u ((assocGet m u).getD [] ++ [rec])).any
        (fun e => e.2.any (P e.1)))
      = (P u rec || m.any (fun e => e.2.any (P e.1))) := by
  induction m with
  | nil => simp [assocSet, assocGet]
  | cons e rest ih =>
    rw [assocGet_cons]
    by_cases h : e.1 = u
    · rw [if_pos h, assocSet, if_pos h]
      simp only [List.any_cons, List.any_append, List.any_nil,
        Option.getD_some, Bool.or_false, h]
      cases P u rec <;> cases e.2.any (P u) <;> simp
    · rw [if_neg h, assocSet, if_neg h]
      simp only [List.any_cons, ih]
      cases P u rec <;> cases e.2.any (P e.1) <;> simp


theorem gray_update_any (m : List (Str × List (Str × List Str)))
    (u key : Str) (contents : List Str) (P : Str → Str → Bool) :
    ((assocSet m u (assocSet ((assocGet m u).getD []) key contents)).any
        (fun e => e.2.any (fun kv => P e.1 kv.1)))
      = (P u key || m.any (fun e => e.2.any (fun kv => P e.1 kv.1))) := by
  induction m with
  | nil => simp [assocSet, assocGet]
  | cons e rest ih =>
    rw [assocGet_cons]
    by_cases h : e.1 = u
    · rw [if_pos h, assocSet, if_pos h]
      simp only [List.any_cons, Option.getD_some]
      rw [assocSet_any_key e.2 key contents (fun kk => P u kk), h]
      cases P u key <;> cases e.2.any (fun kv => P u kv.1) <;> simp
    · rw [if_neg h, assocSet, if_neg h]
      simp only [List.any_cons, ih]
      cases P u key <;> cases e.2.any (fun kv => P e.1 kv.1) <;> simp

/-! ### `record_ignore_path` -/

theorem rip_reg (st : ScanState) (p q : Str) :
    q ∈ (record_ignore_path st p).reg ↔ q = normpath p ∨ q ∈ st.reg :=
  mem_register st.reg p q

theorem rip_ignored (st : ScanState) (p q : Str) :
    ignoredPathB (record_ignore_path st p) q = true ↔
      q = p ∨ ignoredPathB st q = true := by
  show (st.ignored.insert p).contains q = true ↔ _
  rw [containsStr_iff, List.mem_insert_iff]
  rw [ignoredPathB, containsStr_iff]

theorem rip_manual (st : ScanState) (p q : Str) :
    manualPathB (record_ignore_path st p) q = manualPathB st q := rfl

theorem rip_gray (st : ScanState) (p q : Str) :
    grayPathB (record_ignore_path st p) q = grayPathB st q := rfl

theorem rip_app (st : ScanState) (p q : Str) :
    appPathB (record_ignore_path st p) q = appPathB st q := rfl

theorem rip_remaining (st : ScanState) (p : Str) :
    (record_ignore_path st p).remainingGray = st.remainingGray := rfl

/-! ### `record_top_level_gray` -/

theorem rtg_reg (fs : FS) (st : ScanState) (p q : Str) :
    q ∈ (record_top_level_gray fs st p).reg ↔
      q = normpath p ∨ q ∈ st.reg :=
  mem_register st.reg p q

theorem rtg_top (fs : FS) (st : ScanState) (p q : Str) :
    topGrayKeyB (record_top_level_gray fs st p) q = true ↔
      q = p ∨ topGrayKeyB st q = true := by
  show (assocSet st.topGray p _).any (fun e => decide (q = e.1)) = true ↔ _
  rw [assocSet_any_key st.topGray p _ (fun kk => decide (q = kk))]
  rw [topGrayKeyB]
  simp

theorem rtg_gray (fs : FS) (st : ScanState) (p q : Str) :
    grayPathB (record_top_level_gray fs st p) q = true ↔
      q = p ∨ grayPathB st q = true := by
  rw [grayPathB, grayPathB]
  have h1 : userGrayPathB (record_top_level_gray fs st p) q =
      userGrayPathB st q := rfl
  have h2 : remainingGrayKeyB (record_top_level_gray fs st p) q =
      remainingGrayKeyB st q := rfl
  rw [h1, h2]
  have htop := rtg_top fs st p q
  simp only [Bool.or_eq_true] at htop ⊢
  tauto

theorem rtg_manual (fs : FS) (st : ScanState) (p q : Str) :
    manualPathB (record_top_level_gray fs st p) q = manualPathB st q := rfl

theorem rtg_ignored (fs : FS) (st : ScanState) (p q : Str) :
    ignoredPathB (record_top_level_gray fs st p) q = ignoredPathB st q := rfl

theorem rtg_app (fs : FS) (st : ScanState) (p q : Str) :
    appPathB (record_top_level_gray fs st p) q = appPathB st q := rfl

theorem rtg_remaining (fs : FS) (st : ScanState) (p : Str) :
    (record_top_level_gray fs st p).remainingGray = st.remainingGray := rfl

/-! ### `record_user_gray` -/

theorem rug_reg (fs : FS) (st : ScanState) (u p q : Str) :
    q ∈ (record_user_gray fs st u p).reg ↔
      q = normpath p ∨ q ∈ st.reg :=
  mem_register st.reg p q

theorem rug_usergray (fs : FS) (st : ScanState) (u p q : Str)
    (hpre : isInitSeq (strLit "/Users/" ++ u) p = true) :
    userGrayPathB (record_user_gray fs st u p) q = true ↔
      q = p ∨ userGrayPathB st q = true := by
  obtain ⟨r, hr⟩ := isInitSeq_iff_append.mp hpre
  show (assocSet st.userGray u _).any
      (fun e => e.2.any (fun kv => decide (q = strLit "/Users/" ++ e.1 ++ kv.1)))
        = true ↔ _
  rw [gray_update_any st.userGray u _ _
    (fun uu kk => decide (q = strLit "/Users/" ++ uu ++ kk))]
  have hdrop : p.drop (strLit "/Users/" ++ u).length = r := by
    rw [hr]
    exact List.drop_left _ _
  have hrec : strLit "/Users/" ++ u ++ p.drop (strLit "/Users/" ++ u).length
      = p := by
    rw [hdrop, hr]
  rw [hrec]
  simp [userGrayPathB]

theorem rug_gray (fs : FS) (st : ScanState) (u p q : Str)
    (hpre : isInitSeq (strLit "/Users/" ++ u) p = true) :
    grayPathB (record_user_gray fs st u p) q = true ↔
      q = p ∨ grayPathB st q = true := by
  rw [grayPathB, grayPathB]
  have h1 : topGrayKeyB (record_user_gray fs st u p) q =
      topGrayKeyB st q := rfl
  have h2 : remainingGrayKeyB (record_user_gray fs st u p) q =
      remainingGrayKeyB st q := rfl
  rw [h1, h2]
  have huser := rug_usergray fs st u p q hpre
  simp only [Bool.or_eq_true] at huser ⊢
  tauto

theorem rug_manual (fs : FS) (st : ScanState) (u p q : Str) :
    manualPathB (record_user_gray fs st u p) q = manualPathB st q := rfl

theorem rug_ignored (fs : FS) (st : ScanState) (u p q : Str) :
    ignoredPathB (record_user_gray fs st u p) q = ignoredPathB st q := rfl

theorem rug_app (fs : FS) (st : ScanState) (u p q : Str) :
    appPathB (record_user_gray fs st u p) q = appPathB st q := rfl

theorem rug_remaining (fs : FS) (st : ScanState) (u p : Str) :
    (record_user_gray fs st u p).remainingGray = st.remainingGray := rfl

/-! ### `record_application` -/

theorem ra_reg (st : ScanState) (full : Str) (casks : List Str) (q : Str) :
    q ∈ (record_application st full casks).reg ↔
      q = normpath full ∨ q ∈ st.reg := by
  rw [record_application]
  dsimp only
  split
  · exact mem_register st.reg full q
  · rw [rip_reg]
    rw [show ({ st with reg := register_scanned_path st.reg full } :
        ScanState).reg = register_scanned_path st.reg full from rfl]
    rw [mem_register]
    tauto
  · exact mem_register st.reg full q

theorem ra_manual (st : ScanState) (full : Str) (casks : List Str) (q : Str) :
    manualPathB (record_application st full casks) q = manualPathB st q := by
  rw [record_application]
  dsimp only
  split <;> rfl

theorem ra_gray (st : ScanState) (full : Str) (casks : List Str) (q : Str) :
    grayPathB (record_application st full casks) q = grayPathB st q := by
  rw [record_application]
  dsimp only
  split <;> rfl

theorem ra_remaining (st : ScanState) (full : Str) (casks : List Str) :
    (record_application st full casks).remainingGray = st.remainingGray := by
  rw [record_application]
  dsimp only
  split <;> rfl

theorem basename_pjoin_apps (item : Str) (hitem : CleanName item) :
    basename (pjoin appsPath item) = item := by
  have h1 : appsPath = joinSegs [strLit "Applications"] := rfl
  have h2 : CleanSegs [strLit "Applications"] := by decide
  rw [h1, pjoin_joinSegs_single _ item h2 hitem]
  exact basename_joinSegs _ item (by
    intro s hs
    simp only [List.mem_append, List.mem_singleton] at hs
    rcases hs with h | h
    · subst h; decide
    · subst h; exact hitem)

theorem ra_app (st : ScanState) (item : Str) (casks : List Str) (q : Str)
    (hitem : CleanName item) :
    appPathB (record_application st (pjoin appsPath item) casks) q = true ↔
      (appDecision item casks ≠ .whitelisted ∧ q = pjoin appsPath item) ∨
        appPathB st q = true := by
  rw [record_application]
  dsimp only
  rw [basename_pjoin_apps item hitem]
  rcases hd : appDecision item casks with _ | _ | _
  · simp only [appPathB, List.any_append, List.any_cons, List.any_nil,
      Bool.or_eq_true, decide_eq_true_eq, Bool.false_eq_true, or_false]
    simp only [ne_eq, reduceCtorEq, not_false_eq_true, true_and]
    constructor
    · intro h
      tauto
    · intro h
      tauto
  · simp only [record_ignore_path, appPathB, ignoredPathB]
    simp only [ne_eq, reduceCtorEq, not_false_eq_true, true_and]
    constructor
    · intro h
      tauto
    · intro h
      rcases h with ⟨h1, _⟩ | h
      · exact absurd trivial h1
      · exact h
  · simp only [appPathB, List.any_append, List.any_cons, List.any_nil,
      Bool.or_eq_true, decide_eq_true_eq, Bool.false_eq_true, or_false]
    simp only [ne_eq, reduceCtorEq, not_false_eq_true, true_and]
    constructor
    · intro h
      tauto
    · intro h
      tauto

theorem ra_ignored (st : ScanState) (item : Str) (casks : List Str) (q : Str)
    (hitem : CleanName item) :
    ignoredPathB (record_application st (pjoin appsPath item) casks) q
        = true ↔
      (appDecision item casks = .whitelisted ∧ q = pjoin appsPath item) ∨
        ignoredPathB st q = true := by
  rw [record_application]
  dsimp only
  rw [basename_pjoin_apps item hitem]
  rcases hd : appDecision item casks with _ | _ | _
  · simp only [ignoredPathB]
    simp only [reduceCtorEq, false_and, false_or]
  · rw [rip_ignored]
    simp only [ignoredPathB]
    simp only [true_and]
  · simp only [ignoredPathB]
    simp only [reduceCtorEq, false_and, false_or]

/-! ### `record_user_manual_customization` -/

theorem rumc_reg (fs : FS) (st : ScanState) (u folder target q : Str) :
    q ∈ (record_user_manual_customization fs st u folder target).reg ↔
      q = normpath target ∨ q ∈ st.reg :=
  mem_register st.reg target q

theorem rumc_manual (fs : FS) (st : ScanState) (u folder target q : Str) :
    manualPathB (record_user_manual_customization fs st u folder target) q
        = true ↔
      q = pjoin (pjoin usersDir u) folder ∨ manualPathB st q = true := by
  show ((assocSet st.userManual u ((assocGet st.userManual u).getD [] ++
      [_])).any (fun e => e.2.any
        (fun r => decide (q = pjoin (pjoin usersDir e.1) r.folder)))) = true ↔ _
  rw [manual_update_any st.userManual u _
    (fun uu r => decide (q = pjoin (pjoin usersDir uu) r.folder))]
  rw [manualPathB]
  simp

theorem rumc_gray (fs : FS) (st : ScanState) (u folder target q : Str) :
    grayPathB (record_user_manual_customization fs st u folder target) q
      = grayPathB st q := rfl

theorem rumc_ignored (fs : FS) (st : ScanState) (u folder target q : Str) :
    ignoredPathB (record_user_manual_customization fs st u folder target) q
      = ignoredPathB st q := rfl

theorem rumc_app (fs : FS) (st : ScanState) (u folder target q : Str) :
    appPathB (record_user_manual_customization fs st u folder target) q
      = appPathB st q := rfl

theorem rumc_remaining (fs : FS) (st : ScanState) (u folder target : Str) :
    (record_user_manual_customization fs st u folder target).remainingGray
      = st.remainingGray := rfl

/-! ### Invariant preservation of the record operations -/

theorem bool_eq_of_iff_or {b c : Bool} {P : Prop} (h : b = true ↔ P ∨ c = true)
    (hnp : ¬P) : b = c := by
  cases b <;> cases c <;> simp_all

theorem bucketCount4_ext (st st' : ScanState) (q : Str)
    (h1 : manualPathB st' q = manualPathB st q)
    (h2 : grayPathB st' q = grayPathB st q)
    (h3 : ignoredPathB st' q = ignoredPathB st q)
    (h4 : appPathB st' q = appPathB st q) :
    bucketCount4 st' q = bucketCount4 st q := by
  rw [bucketCount4, bucketCount4, bucketCount3, bucketCount3, h1, h2, h3, h4]

theorem inv_rip (st : ScanState) (p : Str) (h : ScanInv st)
    (hnp : normpath p = p) (hman : manualPathB st p = false)
    (hgray : grayPathB st p = false) (happ : appPathB st p = false) :
    ScanInv (record_ignore_path st p) := by
  obtain ⟨hpart, hcoup⟩ := h
  constructor
  · intro q hq
    rw [rip_reg, hnp] at hq
    by_cases hqp : q = p
    · subst hqp
      have hig : ignoredPathB (record_ignore_path st q) q = true :=
        (rip_ignored st q q).mpr (Or.inl rfl)
      simp [bucketCount4, bucketCount3, rip_manual, rip_gray, rip_app,
        hig, hman, hgray, happ]
    · have hig : ignoredPathB (record_ignore_path st p) q = ignoredPathB st q :=
        bool_eq_of_iff_or (rip_ignored st p q) hqp
      rw [bucketCount4_ext st _ q (rip_manual st p q) (rip_gray st p q)
        hig (rip_app st p q)]
      exact hpart q (hq.resolve_left hqp)
  · intro q hcount
    rw [rip_reg, hnp]
    by_cases hqp : q = p
    · left; exact hqp
    · right
      have hig : ignoredPathB (record_ignore_path st p) q = ignoredPathB st q :=
        bool_eq_of_iff_or (rip_ignored st p q) hqp
      rw [bucketCount4_ext st _ q (rip_manual st p q) (rip_gray st p q)
        hig (rip_app st p q)] at hcount
      exact hcoup q hcount

theorem inv_rtg (fs : FS) (st : ScanState) (p : Str) (h : ScanInv st)
    (hnp : normpath p = p) (hman : manualPathB st p = false)
    (hign : ignoredPathB st p = false) (happ : appPathB st p = false) :
    ScanInv (record_top_level_gray fs st p) := by
  obtain ⟨hpart, hcoup⟩ := h
  constructor
  · intro q hq
    rw [rtg_reg, hnp] at hq
    by_cases hqp : q = p
    · subst hqp
      have hg : grayPathB (record_top_level_gray fs st q) q = true :=
        (rtg_gray fs st q q).mpr (Or.inl rfl)
      simp [bucketCount4, bucketCount3, rtg_manual, rtg_ignored, rtg_app,
        hg, hman, hign, happ]
    · have hg : grayPathB (record_top_level_gray fs st p) q = grayPathB st q :=
        bool_eq_of_iff_or (rtg_gray fs st p q) hqp
      rw [bucketCount4_ext st _ q (rtg_manual fs st p q) hg
        (rtg_ignored fs st p q) (rtg_app fs st p q)]
      exact hpart q (hq.resolve_left hqp)
  · intro q hcount
    rw [rtg_reg, hnp]
    by_cases hqp : q = p
    · left; exact hqp
    · right
      have hg : grayPathB (record_top_level_gray fs st p) q = grayPathB st q :=
        bool_eq_of_iff_or (rtg_gray fs st p q) hqp
      rw [bucketCount4_ext st _ q (rtg_manual fs st p q) hg
        (rtg_ignored fs st p q) (rtg_app fs st p q)] at hcount
      exact hcoup q hcount

theorem inv_rug (fs : FS) (st : ScanState) (u p : Str) (h : ScanInv st)
    (hpre : isInitSeq (strLit "/Users/" ++ u) p = true)
    (hnp : normpath p = p) (hman : manualPathB st p = false)
    (hign : ignoredPathB st p = false) (happ : appPathB st p = false) :
    ScanInv (record_user_gray fs st u p) := by
  obtain ⟨hpart, hcoup⟩ := h
  constructor
  · intro q hq
    rw [rug_reg, hnp] at hq
    by_cases hqp : q = p
    · subst hqp
      have hg : grayPathB (record_user_gray fs st u q) q = true :=
        (rug_gray fs st u q q hpre).mpr (Or.inl rfl)
      simp [bucketCount4, bucketCount3, rug_manual, rug_ignored, rug_app,
        hg, hman, hign, happ]
    · have hg : grayPathB (record_user_gray fs st u p) q = grayPathB st q :=
        bool_eq_of_iff_or (rug_gray fs st u p q hpre) hqp
      rw [bucketCount4_ext st _ q (rug_manual fs st u p q) hg
        (rug_ignored fs st u p q) (rug_app fs st u p q)]
      exact hpart q (hq.resolve_left hqp)
  · intro q hcount
    rw [rug_reg, hnp]
    by_cases hqp : q = p
    · left; exact hqp
    · right
      have hg : grayPathB (record_user_gray fs st u p) q = grayPathB st q :=
        bool_eq_of_iff_or (rug_gray fs st u p q hpre) hqp
      rw [bucketCount4_ext st _ q (rug_manual fs st u p q) hg
        (rug_ignored fs st u p q) (rug_app fs st u p q)] at hcount
      exact hcoup q hcount

theorem cleanSegs_apps_item (item : Str) (hitem : CleanName item) :
    CleanSegs ([strLit "Applications"] ++ [item]) := by
  intro s hs
  simp only [List.mem_append, List.mem_singleton] at hs
  rcases hs with h | h
  · subst h; decide
  · subst h; exact hitem

theorem normpath_pjoin_apps (item : Str) (hitem : CleanName item) :
    normpath (pjoin appsPath item) = pjoin appsPath item := by
  rw [show appsPath = joinSegs [strLit "Applications"] from rfl,
    pjoin_joinSegs_single _ item (by decide) hitem]
  exact normpath_joinSegs _ (cleanSegs_apps_item item hitem)

theorem inv_ra (st : ScanState) (item : Str) (casks : List Str)
    (h : ScanInv st) (hitem : CleanName item)
    (hman : manualPathB st (pjoin appsPath item) = false)
    (hgray : grayPathB st (pjoin appsPath item) = false)
    (hwl : appDecision item casks = .whitelisted →
      appPathB st (pjoin appsPath item) = false)
    (hnwl : appDecision item casks ≠ .whitelisted →
      ignoredPathB st (pjoin appsPath item) = false) :
    ScanInv (record_application st (pjoin appsPath item) casks) := by
  obtain ⟨hpart, hcoup⟩ := h
  have hnf := normpath_pjoin_apps item hitem
  constructor
  · intro q hq
    rw [ra_reg, hnf] at hq
    by_cases hqp : q = pjoin appsPath item
    · have hm : manualPathB (record_application st (pjoin appsPath item)
          casks) q = false := by
        rw [ra_manual, hqp]
        exact hman
      have hgr : grayPathB (record_application st (pjoin appsPath item)
          casks) q = false := by
        rw [ra_gray, hqp]
        exact hgray
      by_cases hd : appDecision item casks = .whitelisted
      · have happ' : appPathB (record_application st (pjoin appsPath item)
            casks) q = false := by
          have hiff := ra_app st item casks q hitem
          rw [hqp, hwl hd] at hiff
          rw [hqp]
          cases hb : appPathB (record_application st (pjoin appsPath item)
              casks) (pjoin appsPath item)
          · rfl
          · exact absurd ((hiff.mp hb).resolve_right (by simp))
              (by simp [hd])
        have hig' : ignoredPathB (record_application st (pjoin appsPath item)
            casks) q = true :=
          (ra_ignored st item casks q hitem).mpr (Or.inl ⟨hd, hqp⟩)
        simp [bucketCount4, bucketCount3, hm, hgr, happ', hig']
      · have happ' : appPathB (record_application st (pjoin appsPath item)
            casks) q = true :=
          (ra_app st item casks q hitem).mpr (Or.inl ⟨hd, hqp⟩)
        have hig' : ignoredPathB (record_application st (pjoin appsPath item)
            casks) q = false := by
          have hiff := ra_ignored st item casks q hitem
          rw [hqp, hnwl hd] at hiff
          rw [hqp]
          cases hb : ignoredPathB (record_application st (pjoin appsPath item)
              casks) (pjoin appsPath item)
          · rfl
          · exact absurd ((hiff.mp hb).resolve_right (by simp))
              (by simp [hd])
        simp [bucketCount4, bucketCount3, hm, hgr, happ', hig']
    · have happ' : appPathB (record_application st (pjoin appsPath item)
          casks) q = appPathB st q :=
        bool_eq_of_iff_or (ra_app st item casks q hitem)
          (fun hc => hqp hc.2)
      have hig' : ignoredPathB (record_application st (pjoin appsPath item)
          casks) q = ignoredPathB st q :=
        bool_eq_of_iff_or (ra_ignored st item casks q hitem)
          (fun hc => hqp hc.2)
      rw [bucketCount4_ext st _ q (ra_manual st _ casks q)
        (ra_gray st _ casks q) hig' happ']
      exact hpart q (hq.resolve_left hqp)
  · intro q hcount
    rw [ra_reg, hnf]
    by_cases hqp : q = pjoin appsPath item
    · left; exact hqp
    · right
      have happ' : appPathB (record_application st (pjoin appsPath item)
          casks) q = appPathB st q :=
        bool_eq_of_iff_or (ra_app st item casks q hitem)
          (fun hc => hqp hc.2)
      have hig' : ignoredPathB (record_application st (pjoin appsPath item)
          casks) q = ignoredPathB st q :=
        bool_eq_of_iff_or (ra_ignored st item casks q hitem)
          (fun hc => hqp hc.2)
      rw [bucketCount4_ext st _ q (ra_manual st _ casks q)
        (ra_gray st _ casks q) hig' happ'] at hcount
      exact hcoup q hcount

theorem inv_rumc (fs : FS) (st : ScanState) (u folder target : Str)
    (h : ScanInv st)
    (htarget : target = pjoin (pjoin usersDir u) folder)
    (hnp : normpath target = target)
    (hgray : grayPathB st target = false)
    (hign : ignoredPathB st target = false)
    (happ : appPathB st target = false) :
    ScanInv (record_user_manual_customization fs st u folder target) := by
  obtain ⟨hpart, hcoup⟩ := h
  constructor
  · intro q hq
    rw [rumc_reg, hnp] at hq
    by_cases hqp : q = target
    · subst hqp
      have hm : manualPathB (record_user_manual_customization fs st u folder
          q) q = true :=
        (rumc_manual fs st u folder q q).mpr (Or.inl htarget)
      simp [bucketCount4, bucketCount3, rumc_gray, rumc_ignored, rumc_app,
        hm, hgray, hign, happ]
    · have hm : manualPathB (record_user_manual_customization fs st u folder
          target) q = manualPathB st q :=
        bool_eq_of_iff_or (rumc_manual fs st u folder target q)
          (fun hc => hqp (hc.trans htarget.symm))
      rw [bucketCount4_ext st _ q hm (rumc_gray fs st u folder target q)
        (rumc_ignored fs st u folder target q)
        (rumc_app fs st u folder target q)]
      exact hpart q (hq.resolve_left hqp)
  · intro q hcount
    rw [rumc_reg, hnp]
    by_cases hqp : q = target
    · left; exact hqp
    · right
      have hm : manualPathB (record_user_manual_customization fs st u folder
          target) q = manualPathB st q :=
        bool_eq_of_iff_or (rumc_manual fs st u folder target q)
          (fun hc => hqp (hc.trans htarget.symm))
      rw [bucketCount4_ext st _ q hm (rumc_gray fs st u folder target q)
        (rumc_ignored fs st u folder target q)
        (rumc_app fs st u folder target q)] at hcount
      exact hcoup q hcount

/-! ### Well-formedness propagation and generic fold lemmas -/

theorem wf_resolveFS : ∀ f : FS, wfFS f = true → wfFS (resolveFS f) = true
  | .file _, h => h
  | .dir _ _, h => h
  | .link t, h => wf_resolveFS t h

theorem wf_children (r : Bool) (cs : List (Str × FS))
    (h : wfFS (.dir r cs) = true) :
    ∀ e ∈ cs, CleanName e.1 ∧ wfFS e.2 = true := by
  rw [wfFS] at h
  induction cs with
  | nil => intro e he; simp at he
  | cons a rest ih =>
    rw [wfChildren] at h
    rcases a with ⟨n, c⟩
    simp only [Bool.and_eq_true, decide_eq_true_eq] at h
    intro e he
    rcases List.mem_cons.mp he with he | he
    · subst he
      exact ⟨h.1.1, h.1.2⟩
    · exact ih h.2 e he

theorem wf_statSegs : ∀ (segs : List Str) (f : FS), wfFS f = true →
    ∀ n, statSegs f segs = some n → wfFS n = true := by
  intro segs
  induction segs with
  | nil =>
    intro f hf n h
    rw [statSegs] at h
    cases h
    exact hf
  | cons s rest ih =>
    intro f hf n h
    rw [statSegs] at h
    rcases hres : resolveFS f with ⟨sz⟩ | ⟨t⟩ | ⟨r, cs⟩ <;> simp only [hres] at h
    · cases h
    · cases h
    · rcases hcl : childLookup cs s with _ | ⟨c⟩ <;> simp only [hcl] at h
      · cases h
      · have hwf := wf_resolveFS f hf
        rw [hres] at hwf
        have hc : c ∈ cs.map (fun e => e.2) := by
          rw [childLookup] at hcl
          rcases hf2 : cs.find? (fun e => decide (e.1 = s)) with _ | ⟨e⟩ <;>
            simp only [hf2] at hcl
          · cases hcl
          · cases hcl
            exact List.mem_map_of_mem _ (List.mem_of_find?_eq_some hf2)
        obtain ⟨e, he, hce⟩ := List.mem_map.mp hc
        rw [← hce] at h
        exact ih e.2 (wf_children r cs hwf e he).2 n h

theorem wf_listdir_clean (fs : FS) (p : Str) (l : List Str)
    (hwf : wfFS fs = true) (h : listdirAt fs p = some l) :
    ∀ i ∈ l, CleanName i := by
  rw [listdirAt] at h
  rcases hst : statPath fs p with _ | ⟨n⟩ <;> simp only [hst] at h
  · cases h
  · rcases hres : resolveFS n with ⟨sz⟩ | ⟨t⟩ | ⟨r, cs⟩ <;> simp only [hres] at h
    · cases h
    · cases h
    · rcases r with _ | _
      · cases h
      · cases h
        have hn : wfFS n = true := wf_statSegs _ fs hwf n hst
        have hd := wf_resolveFS n hn
        rw [hres] at hd
        intro i hi
        obtain ⟨e, he, rfl⟩ := List.mem_map.mp hi
        exact (wf_children true cs hd e he).1

theorem mem_insLe (le : Str → Str → Bool) (a x : Str) :
    ∀ l : List Str, x ∈ insLe le a l ↔ x = a ∨ x ∈ l := by
  intro l
  induction l with
  | nil => simp [insLe]
  | cons b rest ih =>
    rw [insLe]
    split
    · simp
    · simp only [List.mem_cons, ih]
      tauto

theorem mem_sortStrs (l : List Str) (x : Str) : x ∈ sortStrs l ↔ x ∈ l := by
  rw [sortStrs]
  induction l with
  | nil => simp
  | cons a rest ih =>
    simp only [List.foldr_cons, List.mem_cons]
    rw [mem_insLe]
    tauto

theorem foldl_pres {α : Type} (P : ScanState → Prop)
    (f : ScanState → α → ScanState) (l : List α)
    (hstep : ∀ s a, a ∈ l → P s → P (f s a)) :
    ∀ s, P s → P (l.foldl f s) := by
  induction l with
  | nil => intro s h; exact h
  | cons a rest ih =>
    intro s h
    rw [List.foldl_cons]
    exact ih (fun s' a' ha' h' => hstep s' a' (by simp [ha']) h')
      (f s a) (hstep s a (by simp) h)

theorem exceptFold_pres {α : Type} (P : ScanState → Prop)
    (f : ScanState → α → Except ScanState ScanState) (l : List α)
    (hstep : ∀ s a, a ∈ l → P s →
      (∀ s', f s a = .ok s' → P s') ∧ (∀ s', f s a = .error s' → P s')) :
    ∀ s, P s →
      (∀ s', exceptFold f l s = .ok s' → P s') ∧
      (∀ s', exceptFold f l s = .error s' → P s') := by
  induction l with
  | nil =>
    intro s h
    constructor
    · intro s' hs'
      rw [exceptFold] at hs'
      cases hs'
      exact h
    · intro s' hs'
      rw [exceptFold] at hs'
      cases hs'
  | cons a rest ih =>
    intro s h
    have hstep' := hstep s a (by simp) h
    constructor
    · intro s' hs'
      rw [exceptFold] at hs'
      rcases hf : f s a with ⟨s1⟩ | ⟨s1⟩ <;> rw [hf] at hs'
      · cases hs'
      · exact (ih (fun s2 a2 ha2 h2 => hstep s2 a2 (by simp [ha2]) h2)
          s1 (hstep'.1 s1 hf)).1 s' hs'
    · intro s' hs'
      rw [exceptFold] at hs'
      rcases hf : f s a with ⟨s1⟩ | ⟨s1⟩ <;> rw [hf] at hs'
      · cases hs'
        exact hstep'.2 s' hf
      · exact (ih (fun s2 a2 ha2 h2 => hstep s2 a2 (by simp [ha2]) h2)
          s1 (hstep'.1 s1 hf)).2 s' hs'

/-! ### Shape utilities -/

theorem roots_countSlash : ∀ r ∈ IGNORED_ROOT_DIRS, countSlash r = 1 := by
  decide

theorem includeUser_clean : ∀ f ∈ INCLUDE_USER_FOLDERS, CleanName f := by
  decide

theorem usersDir_join : usersDir = joinSegs [strLit "Users"] := rfl

theorem cleanSegs_single (b : Str) (hb : CleanName b) : CleanSegs [b] := by
  intro s hs
  simp only [List.mem_singleton] at hs
  subst hs
  exact hb

theorem cleanSegs_pair (a b : Str) (ha : CleanName a) (hb : CleanName b) :
    CleanSegs [a, b] := by
  intro s hs
  simp only [List.mem_cons, List.mem_singleton, List.not_mem_nil,
    or_false] at hs
  rcases hs with h | h <;> subst h
  · exact ha
  · exact hb

theorem cleanSegs_append_single (xs : List Str) (b : Str)
    (hxs : CleanSegs xs) (hb : CleanName b) : CleanSegs (xs ++ [b]) := by
  intro s hs
  rcases List.mem_append.mp hs with h | h
  · exact hxs s h
  · simp only [List.mem_singleton] at h
    subst h
    exact hb

theorem userPath_join (u : Str) (hu : CleanName u) :
    pjoin usersDir u = joinSegs [strLit "Users", u] := by
  rw [usersDir_join, pjoin_joinSegs_single _ u (by decide) hu]
  rfl

theorem userFolder_join (u f : Str) (hu : CleanName u) (hf : CleanName f) :
    pjoin (pjoin usersDir u) f = joinSegs [strLit "Users", u, f] := by
  rw [userPath_join u hu,
    pjoin_joinSegs_single [strLit "Users", u] f
      (cleanSegs_pair _ u (by decide) hu) hf]
  rfl

theorem shapeManual_facts (q : Str) (h : ShapeManual q) :
    countSlash q = 3 ∧ basename q ∈ INCLUDE_USER_FOLDERS := by
  obtain ⟨u, f, hu, hf, rfl⟩ := h
  have hfc : CleanName f := includeUser_clean f hf
  rw [userFolder_join u f hu hfc]
  have hcs : CleanSegs [strLit "Users", u, f] := by
    intro s hs
    simp only [List.mem_cons, List.not_mem_nil, or_false,
      List.mem_singleton] at hs
    rcases hs with h | h | h <;> subst h
    · decide
    · exact hu
    · exact hfc
  constructor
  · rw [countSlash_joinSegs _ (by simp) (fun s hs => (hcs s hs).2.1)]
    rfl
  · rw [show ([strLit "Users", u, f] : List Str) =
      [strLit "Users", u] ++ [f] from rfl, basename_joinSegs _ f
        (by rw [show ([strLit "Users", u] ++ [f] : List Str) =
          [strLit "Users", u, f] from rfl]; exact hcs)]
    exact hf

theorem bucketCount4_zero (st : ScanState) (q : Str)
    (h : bucketCount4 st q = 0) :
    manualPathB st q = false ∧ grayPathB st q = false ∧
      ignoredPathB st q = false ∧ appPathB st q = false := by
  rw [bucketCount4, bucketCount3] at h
  cases hm : manualPathB st q <;> cases hg : grayPathB st q <;>
    cases hi : ignoredPathB st q <;> cases ha : appPathB st q <;>
      simp_all

theorem count0_of_not_reg (st : ScanState) (q : Str) (hc : CoupInv st)
    (h : q ∉ st.reg) : bucketCount4 st q = 0 := by
  by_contra h0
  exact h (hc q h0)

theorem pjoin_apps_inj (a b : Str) (ha : CleanName a) (hb : CleanName b)
    (h : pjoin appsPath a = pjoin appsPath b) : a = b := by
  have := congrArg basename h
  rwa [basename_pjoin_apps a ha, basename_pjoin_apps b hb] at this

theorem isInitSeq_refl {α : Type} [DecidableEq α] (l : List α) :
    isInitSeq l l = true := by
  have := isInitSeq_append l []
  simpa using this

theorem users_prefix_full (u : Str) (rest : List Str) :
    isInitSeq (strLit "/Users/" ++ u) (joinSegs (strLit "Users" :: u :: rest))
      = true := by
  cases rest with
  | nil =>
    have h : joinSegs [strLit "Users", u] = strLit "/Users/" ++ u := rfl
    rw [h]
    exact isInitSeq_refl _
  | cons r rs =>
    have h : joinSegs (strLit "Users" :: u :: r :: rs) =
        (strLit "/Users/" ++ u) ++ ('/' :: interSlash (r :: rs)) := by
      rw [joinSegs, interSlash_cons _ _ (by simp),
        interSlash_cons u _ (by simp)]
      simp [strLit]
    rw [h]
    exact isInitSeq_append _ _

theorem countSlash_pjoin_apps (item : Str) (hitem : CleanName item) :
    countSlash (pjoin appsPath item) = 2 := by
  rw [show appsPath = joinSegs [strLit "Applications"] from rfl,
    pjoin_joinSegs_single _ item (by decide) hitem,
    countSlash_joinSegs _ (by simp)
      (fun s hs => ((cleanSegs_apps_item item hitem) s hs).2.1)]
  rfl

theorem countSlash_userFolder (u f : Str) (hu : CleanName u)
    (hf : CleanName f) :
    countSlash (pjoin (pjoin usersDir u) f) = 3 := by
  rw [userFolder_join u f hu hf, countSlash_joinSegs _ (by simp)
    (fun s hs => by
      simp only [List.mem_cons, List.not_mem_nil, or_false,
        List.mem_singleton] at hs
      rcases hs with h | h | h <;> subst h
      · decide
      · exact hu.2.1
      · exact hf.2.1)]
  rfl

theorem basename_userFolder (u f : Str) (hu : CleanName u)
    (hf : CleanName f) : basename (pjoin (pjoin usersDir u) f) = f := by
  rw [userFolder_join u f hu hf,
    show ([strLit "Users", u, f] : List Str) = [strLit "Users", u] ++ [f]
      from rfl]
  exact basename_joinSegs _ f (cleanSegs_append_single _ f
    (cleanSegs_pair _ u (by decide) hu) hf)

/-! ### `MidInv` preservation at each call site -/

theorem roots_normpath : ∀ r ∈ IGNORED_ROOT_DIRS, normpath r = r := by
  decide

theorem midinv_rip_root (casks : List Str) (st : ScanState) (ig : Str)
    (hmem : ig ∈ IGNORED_ROOT_DIRS) (h : MidInv casks st) :
    MidInv casks (record_ignore_path st ig) := by
  obtain ⟨hinv, hiShape, haShape, hmShape, hgShape⟩ := h
  have hcs : countSlash ig = 1 := roots_countSlash ig hmem
  have hman : manualPathB st ig = false := by
    cases hb : manualPathB st ig
    · rfl
    · have := (shapeManual_facts ig (hmShape ig hb)).1
      omega
  have hgray : grayPathB st ig = false := by
    cases hb : grayPathB st ig
    · rfl
    · exfalso
      rcases hgShape ig hb with ⟨h1, hall⟩ | ⟨h1, _⟩ | ⟨h1, _⟩
      · have hmem2 : ig ∈ IGNORED_ROOT_DIRS ++ INCLUDE_ROOT_DIRS := by
          simp [hmem]
        have := List.all_eq_true.mp hall ig hmem2
        rw [isInitSeq_refl] at this
        simp at this
      · omega
      · rcases h1 with h1 | h1 <;> omega
  have happ : appPathB st ig = false := by
    cases hb : appPathB st ig
    · rfl
    · have := (haShape ig hb).1
      omega
  refine ⟨inv_rip st ig hinv (roots_normpath ig hmem) hman hgray happ,
    ?_, ?_, ?_, ?_⟩
  · intro q hq
    rcases (rip_ignored st ig q).mp hq with h | h
    · subst h
      exact Or.inl hmem
    · exact hiShape q h
  · intro q hq
    rw [rip_app] at hq
    exact haShape q hq
  · intro q hq
    rw [rip_manual] at hq
    exact hmShape q hq
  · intro q hq
    rw [rip_gray] at hq
    exact hgShape q hq

theorem midinv_ra_item (casks : List Str) (st : ScanState) (item : Str)
    (hitem : CleanName item) (h : MidInv casks st) :
    MidInv casks (record_application st (pjoin appsPath item) casks) := by
  obtain ⟨hinv, hiShape, haShape, hmShape, hgShape⟩ := h
  have hcs : countSlash (pjoin appsPath item) = 2 :=
    countSlash_pjoin_apps item hitem
  have hman : manualPathB st (pjoin appsPath item) = false := by
    cases hb : manualPathB st (pjoin appsPath item)
    · rfl
    · have := (shapeManual_facts _ (hmShape _ hb)).1
      omega
  have hgray : grayPathB st (pjoin appsPath item) = false := by
    cases hb : grayPathB st (pjoin appsPath item)
    · rfl
    · exfalso
      rcases hgShape _ hb with ⟨h1, _⟩ | ⟨h1, _⟩ | ⟨h1, _⟩
      · omega
      · omega
      · rcases h1 with h1 | h1 <;> omega
  have hwl : appDecision item casks = .whitelisted →
      appPathB st (pjoin appsPath item) = false := by
    intro hd
    cases hb : appPathB st (pjoin appsPath item)
    · rfl
    · exact absurd hd ((haShape _ hb).2 item hitem rfl)
  have hnwl : appDecision item casks ≠ .whitelisted →
      ignoredPathB st (pjoin appsPath item) = false := by
    intro hd
    cases hb : ignoredPathB st (pjoin appsPath item)
    · rfl
    · exfalso
      rcases hiShape _ hb with h1 | ⟨h1, hdec⟩ | ⟨h1, _⟩
      · have := roots_countSlash _ h1
        omega
      · exact hd (hdec item hitem rfl)
      · rcases h1 with h1 | h1 <;> omega
  refine ⟨inv_ra st item casks hinv hitem hman hgray hwl hnwl,
    ?_, ?_, ?_, ?_⟩
  · intro q hq
    rcases (ra_ignored st item casks q hitem).mp hq with ⟨hd, hqe⟩ | h
    · subst hqe
      refine Or.inr (Or.inl ⟨hcs, ?_⟩)
      intro it hit hq2
      rwa [pjoin_apps_inj it item hit hitem hq2.symm]
    · exact hiShape q h
  · intro q hq
    rcases (ra_app st item casks q hitem).mp hq with ⟨hd, hqe⟩ | h
    · subst hqe
      refine ⟨hcs, ?_⟩
      intro it hit hq2
      rwa [pjoin_apps_inj it item hit hitem hq2.symm]
    · exact haShape q h
  · intro q hq
    rw [ra_manual] at hq
    exact hmShape q hq
  · intro q hq
    rw [ra_gray] at hq
    exact hgShape q hq

theorem midinv_rumc_step (casks : List Str) (fs : FS) (st : ScanState)
    (u folder : Str) (hu : CleanName u) (hf : folder ∈ INCLUDE_USER_FOLDERS)
    (h : MidInv casks st) :
    MidInv casks (record_user_manual_customization fs st u folder
      (pjoin (pjoin usersDir u) folder)) := by
  obtain ⟨hinv, hiShape, haShape, hmShape, hgShape⟩ := h
  have hfc : CleanName folder := includeUser_clean folder hf
  have hcs : countSlash (pjoin (pjoin usersDir u) folder) = 3 :=
    countSlash_userFolder u folder hu hfc
  have hbn : basename (pjoin (pjoin usersDir u) folder) = folder :=
    basename_userFolder u folder hu hfc
  have hgray : grayPathB st (pjoin (pjoin usersDir u) folder) = false := by
    cases hb : grayPathB st (pjoin (pjoin usersDir u) folder)
    · rfl
    · exfalso
      rcases hgShape _ hb with ⟨h1, _⟩ | ⟨h1, hni, _⟩ | ⟨h1, _⟩
      · omega
      · rw [hbn] at hni
        exact hni (containsStr_iff _ folder |>.mpr hf)
      · rcases h1 with h1 | h1 <;> omega
  have hign : ignoredPathB st (pjoin (pjoin usersDir u) folder) = false := by
    cases hb : ignoredPathB st (pjoin (pjoin usersDir u) folder)
    · rfl
    · exfalso
      rcases hiShape _ hb with h1 | ⟨h1, _⟩ | ⟨h1, _⟩
      · have := roots_countSlash _ h1
        omega
      · omega
      · rcases h1 with h1 | h1 <;> omega
  have happ : appPathB st (pjoin (pjoin usersDir u) folder) = false := by
    cases hb : appPathB st (pjoin (pjoin usersDir u) folder)
    · rfl
    · have := (haShape _ hb).1
      omega
  have hnp : normpath (pjoin (pjoin usersDir u) folder) =
      pjoin (pjoin usersDir u) folder := by
    rw [userFolder_join u folder hu hfc]
    exact normpath_joinSegs _ (by
      intro s hs
      simp only [List.mem_cons, List.not_mem_nil, or_false,
        List.mem_singleton] at hs
      rcases hs with h1 | h1 | h1 <;> subst h1
      · decide
      · exact hu
      · exact hfc)
  refine ⟨inv_rumc fs st u folder _ hinv rfl hnp hgray hign happ,
    ?_, ?_, ?_, ?_⟩
  · intro q hq
    rw [rumc_ignored] at hq
    exact hiShape q hq
  · intro q hq
    rw [rumc_app] at hq
    exact haShape q hq
  · intro q hq
    rcases (rumc_manual fs st u folder _ q).mp hq with hqe | h2
    · exact ⟨u, folder, hu, hf, hqe⟩
    · exact hmShape q h2
  · intro q hq
    rw [rumc_gray] at hq
    exact hgShape q hq

theorem midinv_rug_home (casks : List Str) (fs : FS) (st : ScanState)
    (u item : Str) (hu : CleanName u) (hitem : CleanName item)
    (hninc : INCLUDE_USER_FOLDERS.contains item = false)
    (hnign : IGNORE_USER_FOLDERS.contains item = false)
    (h : MidInv casks st) :
    MidInv casks (record_user_gray fs st u
      (pjoin (pjoin usersDir u) item)) := by
  obtain ⟨hinv, hiShape, haShape, hmShape, hgShape⟩ := h
  have hcs : countSlash (pjoin (pjoin usersDir u) item) = 3 :=
    countSlash_userFolder u item hu hitem
  have hbn : basename (pjoin (pjoin usersDir u) item) = item :=
    basename_userFolder u item hu hitem
  have hpre : isInitSeq (strLit "/Users/" ++ u)
      (pjoin (pjoin usersDir u) item) = true := by
    rw [userFolder_join u item hu hitem]
    exact users_prefix_full u [item]
  have hman : manualPathB st (pjoin (pjoin usersDir u) item) = false := by
    cases hb : manualPathB st (pjoin (pjoin usersDir u) item)
    · rfl
    · exfalso
      have hfacts := shapeManual_facts _ (hmShape _ hb)
      rw [hbn] at hfacts
      have := (containsStr_iff INCLUDE_USER_FOLDERS item).mpr hfacts.2
      rw [hninc] at this
      cases this
  have hign : ignoredPathB st (pjoin (pjoin usersDir u) item) = false := by
    cases hb : ignoredPathB st (pjoin (pjoin usersDir u) item)
    · rfl
    · exfalso
      rcases hiShape _ hb with h1 | ⟨h1, _⟩ | ⟨h1, _⟩
      · have := roots_countSlash _ h1
        omega
      · omega
      · rcases h1 with h1 | h1 <;> omega
  have happ : appPathB st (pjoin (pjoin usersDir u) item) = false := by
    cases hb : appPathB st (pjoin (pjoin usersDir u) item)
    · rfl
    · have := (haShape _ hb).1
      omega
  have hnp : normpath (pjoin (pjoin usersDir u) item) =
      pjoin (pjoin usersDir u) item := by
    rw [userFolder_join u item hu hitem]
    exact normpath_joinSegs _ (by
      intro s hs
      simp only [List.mem_cons, List.not_mem_nil, or_false,
        List.mem_singleton] at hs
      rcases hs with h1 | h1 | h1 <;> subst h1
      · decide
      · exact hu
      · exact hitem)
  refine ⟨inv_rug fs st u _ hinv hpre hnp hman hign happ, ?_, ?_, ?_, ?_⟩
  · intro q hq
    rw [rug_ignored] at hq
    exact hiShape q hq
  · intro q hq
    rw [rug_app] at hq
    exact haShape q hq
  · intro q hq
    rw [rug_manual] at hq
    exact hmShape q hq
  · intro q hq
    rcases (rug_gray fs st u _ q hpre).mp hq with hqe | h2
    · subst hqe
      refine Or.inr (Or.inl ⟨hcs, ?_, ?_⟩)
      · rw [hbn]
        intro hc
        rw [hninc] at hc
        cases hc
      · rw [hbn]
        intro hc
        rw [hnign] at hc
        cases hc
    · exact hgShape q h2

theorem deepSegs_clean (u : Str) (gsegs : List Str) (item : Str)
    (hu : CleanName u) (hg : CleanSegs gsegs) (hitem : CleanName item) :
    CleanSegs (strLit "Users" :: u :: (gsegs ++ [item])) := by
  intro s hs
  simp only [List.mem_cons, List.mem_append, List.mem_singleton,
    List.not_mem_nil, or_false] at hs
  rcases hs with h1 | h1 | h1 | h1
  · subst h1; decide
  · subst h1; exact hu
  · exact hg s h1
  · subst h1; exact hitem

theorem deepPath_countSlash (u : Str) (gsegs : List Str) (item : Str)
    (hu : CleanName u) (hg : CleanSegs gsegs) (hitem : CleanName item) :
    countSlash (joinSegs (strLit "Users" :: u :: (gsegs ++ [item]))) =
      3 + gsegs.length := by
  rw [countSlash_joinSegs _ (by simp)
    (fun s hs => ((deepSegs_clean u gsegs item hu hg hitem) s hs).2.1)]
  simp
  omega

theorem deepPath_basename (u : Str) (gsegs : List Str) (item : Str)
    (hu : CleanName u) (hg : CleanSegs gsegs) (hitem : CleanName item) :
    basename (joinSegs (strLit "Users" :: u :: (gsegs ++ [item]))) = item := by
  rw [show (strLit "Users" :: u :: (gsegs ++ [item])) =
    (strLit "Users" :: u :: gsegs) ++ [item] by simp]
  exact basename_joinSegs _ item (by
    rw [show ((strLit "Users" :: u :: gsegs) ++ [item]) =
      strLit "Users" :: u :: (gsegs ++ [item]) by simp]
    exact deepSegs_clean u gsegs item hu hg hitem)

theorem midinv_rug_deep (casks : List Str) (fs : FS) (st : ScanState)
    (u : Str) (gsegs : List Str) (item : Str) (hu : CleanName u)
    (hg : CleanSegs gsegs) (hlen : gsegs.length = 1 ∨ gsegs.length = 2)
    (hitem : CleanName item) (hdec : ignDec item = false)
    (h : MidInv casks st) :
    MidInv casks (record_user_gray fs st u
      (joinSegs (strLit "Users" :: u :: (gsegs ++ [item])))) := by
  obtain ⟨hinv, hiShape, haShape, hmShape, hgShape⟩ := h
  have hcs := deepPath_countSlash u gsegs item hu hg hitem
  have hbn := deepPath_basename u gsegs item hu hg hitem
  have h45 : countSlash (joinSegs (strLit "Users" :: u :: (gsegs ++ [item])))
      = 4 ∨ countSlash (joinSegs (strLit "Users" :: u :: (gsegs ++ [item])))
      = 5 := by
    rcases hlen with h1 | h1 <;> rw [hcs, h1] <;> simp
  have hpre : isInitSeq (strLit "/Users/" ++ u)
      (joinSegs (strLit "Users" :: u :: (gsegs ++ [item]))) = true :=
    users_prefix_full u (gsegs ++ [item])
  have hman : manualPathB st
      (joinSegs (strLit "Users" :: u :: (gsegs ++ [item]))) = false := by
    cases hb : manualPathB st _
    · rfl
    · have := (shapeManual_facts _ (hmShape _ hb)).1
      omega
  have hign : ignoredPathB st
      (joinSegs (strLit "Users" :: u :: (gsegs ++ [item]))) = false := by
    cases hb : ignoredPathB st _
    · rfl
    · exfalso
      rcases hiShape _ hb with h1 | ⟨h1, _⟩ | ⟨h1, hd⟩
      · have := roots_countSlash _ h1
        omega
      · omega
      · rw [hbn, hdec] at hd
        cases hd
  have happ : appPathB st
      (joinSegs (strLit "Users" :: u :: (gsegs ++ [item]))) = false := by
    cases hb : appPathB st _
    · rfl
    · have := (haShape _ hb).1
      omega
  have hnp := normpath_joinSegs _ (deepSegs_clean u gsegs item hu hg hitem)
  refine ⟨inv_rug fs st u _ hinv hpre hnp hman hign happ, ?_, ?_, ?_, ?_⟩
  · intro q hq
    rw [rug_ignored] at hq
    exact hiShape q hq
  · intro q hq
    rw [rug_app] at hq
    exact haShape q hq
  · intro q hq
    rw [rug_manual] at hq
    exact hmShape q hq
  · intro q hq
    rcases (rug_gray fs st u _ q hpre).mp hq with hqe | h2
    · subst hqe
      refine Or.inr (Or.inr ⟨h45, ?_⟩)
      rw [hbn]
      exact hdec
    · exact hgShape q h2

theorem midinv_rip_deep (casks : List Str) (st : ScanState)
    (u : Str) (gsegs : List Str) (item : Str) (hu : CleanName u)
    (hg : CleanSegs gsegs) (hlen : gsegs.length = 1 ∨ gsegs.length = 2)
    (hitem : CleanName item) (hdec : ignDec item = true)
    (h : MidInv casks st) :
    MidInv casks (record_ignore_path st
      (joinSegs (strLit "Users" :: u :: (gsegs ++ [item])))) := by
  obtain ⟨hinv, hiShape, haShape, hmShape, hgShape⟩ := h
  have hcs := deepPath_countSlash u gsegs item hu hg hitem
  have hbn := deepPath_basename u gsegs item hu hg hitem
  have h45 : countSlash (joinSegs (strLit "Users" :: u :: (gsegs ++ [item])))
      = 4 ∨ countSlash (joinSegs (strLit "Users" :: u :: (gsegs ++ [item])))
      = 5 := by
    rcases hlen with h1 | h1 <;> rw [hcs, h1] <;> simp
  have hman : manualPathB st
      (joinSegs (strLit "Users" :: u :: (gsegs ++ [item]))) = false := by
    cases hb : manualPathB st _
    · rfl
    · have := (shapeManual_facts _ (hmShape _ hb)).1
      omega
  have hgray : grayPathB st
      (joinSegs (strLit "Users" :: u :: (gsegs ++ [item]))) = false := by
    cases hb : grayPathB st _
    · rfl
    · exfalso
      rcases hgShape _ hb with ⟨h1, _⟩ | ⟨h1, _⟩ | ⟨h1, hd⟩
      · omega
      · omega
      · rw [hbn, hdec] at hd
        cases hd
  have happ : appPathB st
      (joinSegs (strLit "Users" :: u :: (gsegs ++ [item]))) = false := by
    cases hb : appPathB st _
    · rfl
    · have := (haShape _ hb).1
      omega
  have hnp := normpath_joinSegs _ (deepSegs_clean u gsegs item hu hg hitem)
  refine ⟨inv_rip st _ hinv hnp hman hgray happ, ?_, ?_, ?_, ?_⟩
  · intro q hq
    rcases (rip_ignored st _ q).mp hq with hqe | h2
    · subst hqe
      exact Or.inr (Or.inr ⟨h45, by rw [hbn]; exact hdec⟩)
    · exact hiShape q h2
  · intro q hq
    rw [rip_app] at hq
    exact haShape q hq
  · intro q hq
    rw [rip_manual] at hq
    exact hmShape q hq
  · intro q hq
    rw [rip_gray] at hq
    exact hgShape q hq

theorem root_join (entry : Str) (hentry : CleanName entry) :
    pjoin (strLit "/") entry = joinSegs [entry] := by
  have h0 : isInitSeq (strLit "/") entry = false := by
    have := isInitSeq_slash_false entry hentry.1 hentry.2.1 []
    simpa using this
  rw [pjoin, h0]
  simp only [Bool.false_eq_true, if_false]
  rw [if_pos (by right; rfl)]
  rfl

theorem midinv_rtg_top (casks : List Str) (fs : FS) (st : ScanState)
    (entry : Str) (hentry : CleanName entry)
    (hnoig : IGNORED_ROOT_DIRS.any
      (fun ig => isInitSeq ig (pjoin (strLit "/") entry)) = false)
    (hninc : INCLUDE_ROOT_DIRS.any
      (fun ig => isInitSeq ig (pjoin (strLit "/") entry)) = false)
    (h : MidInv casks st) :
    MidInv casks (record_top_level_gray fs st (pjoin (strLit "/") entry)) := by
  obtain ⟨hinv, hiShape, haShape, hmShape, hgShape⟩ := h
  have hj := root_join entry hentry
  have hcs : countSlash (pjoin (strLit "/") entry) = 1 := by
    rw [hj, countSlash_joinSegs _ (by simp)
      (fun s hs => ((cleanSegs_single entry hentry) s hs).2.1)]
    rfl
  have hallig : ∀ ig ∈ IGNORED_ROOT_DIRS,
      isInitSeq ig (pjoin (strLit "/") entry) = false := by
    intro ig hig
    by_contra hc
    have h2 : IGNORED_ROOT_DIRS.any
        (fun ig => isInitSeq ig (pjoin (strLit "/") entry)) = true :=
      List.any_eq_true.mpr ⟨ig, hig, by
        cases hb : isInitSeq ig (pjoin (strLit "/") entry)
        · exact absurd hb hc
        · simp⟩
    rw [hnoig] at h2
    cases h2
  have hallinc : ∀ ig ∈ INCLUDE_ROOT_DIRS,
      isInitSeq ig (pjoin (strLit "/") entry) = false := by
    intro ig hig
    by_contra hc
    have h2 : INCLUDE_ROOT_DIRS.any
        (fun ig => isInitSeq ig (pjoin (strLit "/") entry)) = true :=
      List.any_eq_true.mpr ⟨ig, hig, by
        cases hb : isInitSeq ig (pjoin (strLit "/") entry)
        · exact absurd hb hc
        · simp⟩
    rw [hninc] at h2
    cases h2
  have hman : manualPathB st (pjoin (strLit "/") entry) = false := by
    cases hb : manualPathB st (pjoin (strLit "/") entry)
    · rfl
    · have := (shapeManual_facts _ (hmShape _ hb)).1
      omega
  have hign : ignoredPathB st (pjoin (strLit "/") entry) = false := by
    cases hb : ignoredPathB st (pjoin (strLit "/") entry)
    · rfl
    · exfalso
      rcases hiShape _ hb with h1 | ⟨h1, _⟩ | ⟨h1, _⟩
      · have := hallig _ h1
        rw [isInitSeq_refl] at this
        cases this
      · omega
      · rcases h1 with h1 | h1 <;> omega
  have happ : appPathB st (pjoin (strLit "/") entry) = false := by
    cases hb : appPathB st (pjoin (strLit "/") entry)
    · rfl
    · have := (haShape _ hb).1
      omega
  have hnp : normpath (pjoin (strLit "/") entry) = pjoin (strLit "/") entry := by
    rw [hj]
    exact normpath_joinSegs _ (cleanSegs_single entry hentry)
  refine ⟨inv_rtg fs st _ hinv hnp hman hign happ, ?_, ?_, ?_, ?_⟩
  · intro q hq
    rw [rtg_ignored] at hq
    exact hiShape q hq
  · intro q hq
    rw [rtg_app] at hq
    exact haShape q hq
  · intro q hq
    rw [rtg_manual] at hq
    exact hmShape q hq
  · intro q hq
    rcases (rtg_gray fs st _ q).mp hq with hqe | h2
    · subst hqe
      refine Or.inl ⟨hcs, ?_⟩
      rw [List.all_eq_true]
      intro ig hig
      rcases List.mem_append.mp hig with h1 | h1
      · rw [hallig ig h1]
        rfl
      · rw [hallinc ig h1]
        rfl
    · exact hgShape q h2

theorem inv_crawlRecordRoute (fs : FS) (st : ScanState) (segs : List Str)
    (hinv : ScanInv st) (hcs : CleanSegs segs)
    (hnreg : joinSegs segs ∉ st.reg) :
    ScanInv (crawlRecordRoute fs st (joinSegs segs)) := by
  have hcount := count0_of_not_reg st _ hinv.2 hnreg
  obtain ⟨hman, hgray, hign, happ⟩ := bucketCount4_zero st _ hcount
  have hnp := normpath_joinSegs segs hcs
  rw [crawlRecordRoute]
  split
  · rename_i hu
    obtain ⟨u, rest, hsegs⟩ := segs_of_users_prefix segs hcs hu
    subst hsegs
    have hsp : (splitSlash (joinSegs (strLit "Users" :: u :: rest))).getD 2 []
        = u := by
      rw [splitSlash_joinSegs _ (by simp)
        (fun s hs => (hcs s hs).2.1)]
      rfl
    rw [hsp]
    exact inv_rug fs st u _ hinv (users_prefix_full u rest) hnp hman hign happ
  · exact inv_rtg fs st _ hinv hnp hman hign happ

/-! ### Registry monotonicity and `remaining_gray` frame through the crawl -/

theorem prog_refl (st : ScanState) : Progresses st st := ⟨fun _ h => h, rfl⟩

theorem prog_trans {a b c : ScanState} (h1 : Progresses a b)
    (h2 : Progresses b c) : Progresses a c :=
  ⟨fun q hq => h2.1 (h1.1 hq), by rw [h2.2, h1.2]⟩

theorem prog_rip (st : ScanState) (p : Str) :
    Progresses st (record_ignore_path st p) :=
  ⟨register_mono st.reg p, rfl⟩

theorem prog_rtg (fs : FS) (st : ScanState) (p : Str) :
    Progresses st (record_top_level_gray fs st p) :=
  ⟨register_mono st.reg p, rfl⟩

theorem prog_rug (fs : FS) (st : ScanState) (u p : Str) :
    Progresses st (record_user_gray fs st u p) :=
  ⟨register_mono st.reg p, rfl⟩

theorem prog_ra (st : ScanState) (full : Str) (casks : List Str) :
    Progresses st (record_application st full casks) := by
  rw [record_application]
  dsimp only
  split
  · exact ⟨register_mono st.reg full, rfl⟩
  · exact prog_trans (⟨register_mono st.reg full, rfl⟩ :
      Progresses st { st with reg := register_scanned_path st.reg full })
      (prog_rip _ full)
  · exact ⟨register_mono st.reg full, rfl⟩

theorem prog_rumc (fs : FS) (st : ScanState) (u folder target : Str) :
    Progresses st (record_user_manual_customization fs st u folder target) :=
  ⟨register_mono st.reg target, rfl⟩

theorem prog_crawlRecordRoute (fs : FS) (st : ScanState) (nd : Str) :
    Progresses st (crawlRecordRoute fs st nd) := by
  rw [crawlRecordRoute]
  split
  · exact prog_rug fs st _ nd
  · exact prog_rtg fs st nd


theorem prog_procChild (fs : FS) (root : Str)
    (acc : ScanState × List (Str × FS)) (e : Str × FS) :
    Progresses acc.1 (procChild fs root acc e).1 := by
  unfold procChild
  dsimp only
  split
  · exact prog_refl _
  · exact prog_refl _
  · exact prog_refl _
  · exact prog_crawlRecordRoute fs acc.1 _

theorem prog_procChildren (fs : FS) (root : Str)
    (l : List (Str × FS)) :
    ∀ acc : ScanState × List (Str × FS),
      Progresses acc.1 (l.foldl (procChild fs root) acc).1 := by
  induction l with
  | nil => intro acc; exact prog_refl _
  | cons a rest ih =>
    intro acc
    rw [List.foldl_cons]
    exact prog_trans (prog_procChild fs root acc a) (ih _)

theorem crawl_progresses : ∀ n : Nat,
    (∀ (fs : FS) (st : ScanState) (root : Str) (node : FS),
      sizeOf node ≤ n → Progresses st (crawlNode fs st root node)) ∧
    (∀ (fs : FS) (st : ScanState) (root : Str) (node : FS),
      sizeOf node ≤ n → Progresses st (crawlLinkRoot fs st root node)) ∧
    (∀ (fs : FS) (st : ScanState) (root : Str) (l : List (Str × FS)),
      sizeOf l ≤ n → Progresses st (crawlGo fs st root l)) := by
  intro n
  induction n using Nat.strong_induction_on with
  | _ n ih =>
    refine ⟨?_, ?_, ?_⟩
    · intro fs st root node hsz
      rcases node with ⟨sz⟩ | ⟨t⟩ | ⟨r, cs⟩
      · rw [crawlNode]
        exact prog_refl st
      · have hlt : sizeOf t < n := by
          have hs : sizeOf (FS.link t) = 1 + sizeOf t := by
            simp
          omega
        rw [crawlNode]
        exact (ih (sizeOf t) hlt).2.1 fs st root t (le_refl _)
      · have hlt : sizeOf cs < n := by
          have hs : sizeOf (FS.dir r cs) = 1 + sizeOf r + sizeOf cs := by
            simp
          have hr : 0 < sizeOf r := by cases r <;> simp
          omega
        rcases r with _ | _
        · rw [crawlNode]
          exact prog_refl st
        · rw [crawlNode]
          split
          · exact prog_refl st
          · refine prog_trans (prog_procChildren fs root
              (cs.filter (fun e => isdirB e.2)) (st, [])) ?_
            have hsub := procChild_foldl_sublist fs root
              (cs.filter (fun e => isdirB e.2)) (st, [])
            simp only [List.nil_append] at hsub
            have hle1 := sizeOf_le_of_entrySublist hsub
            have hle2 := sizeOf_le_of_entrySublist
              (List.filter_sublist (l := cs) (p := fun e => isdirB e.2))
            exact (ih (sizeOf cs) hlt).2.2 fs _ root _ (by omega)
    · intro fs st root node hsz
      rcases node with ⟨sz⟩ | ⟨t⟩ | ⟨r, cs⟩
      · rw [crawlLinkRoot]
        · exact prog_refl st
        · intro t h
          exact FS.noConfusion h
        · intro cs h
          exact FS.noConfusion h
      · have hlt : sizeOf t < n := by
          have hs : sizeOf (FS.link t) = 1 + sizeOf t := by
            simp
          omega
        rw [crawlLinkRoot]
        exact (ih (sizeOf t) hlt).2.1 fs st root t (le_refl _)
      · have hlt : sizeOf cs < n := by
          have hs : sizeOf (FS.dir r cs) = 1 + sizeOf r + sizeOf cs := by
            simp
          have hr : 0 < sizeOf r := by cases r <;> simp
          omega
        rcases r with _ | _
        · rw [crawlLinkRoot]
          · exact prog_refl st
          · intro t h
            exact FS.noConfusion h
          · intro cs' h
            simp at h
        · rw [crawlLinkRoot]
          have hle2 := sizeOf_le_of_entrySublist
            (List.filter_sublist (l := cs) (p := fun e => isdirB e.2))
          exact (ih (sizeOf cs) hlt).2.2 fs st root _ (by omega)
    · intro fs st root l hsz
      rcases l with _ | ⟨⟨name, c⟩, rest⟩
      · rw [crawlGo]
        exact prog_refl st
      · have hszs : sizeOf c < n ∧ sizeOf rest < n := by
          have hs : sizeOf ((name, c) :: rest) =
              1 + (1 + sizeOf name + sizeOf c) + sizeOf rest := by
            simp
          omega
        rw [crawlGo]
        by_cases hl : islinkB c
        · simp only [hl, if_true]
          exact (ih (sizeOf rest) hszs.2).2.2 fs st root rest (le_refl _)
        · simp only [hl, if_false]
          refine prog_trans
            ((ih (sizeOf c) hszs.1).1 fs st (pjoin root name) c (le_refl _)) ?_
          exact (ih (sizeOf rest) hszs.2).2.2 fs _ root rest (le_refl _)

/-! ### The partition invariant is preserved by the crawl -/

theorem classifyDir_record_not_reg {reg hd lk : Bool}
    (h : classifyDir reg hd lk = .record) : reg = false := by
  cases reg with
  | false => rfl
  | true => simp [classifyDir] at h

theorem inv_procChild (fs : FS) (xs : List Str)
    (acc : ScanState × List (Str × FS)) (e : Str × FS)
    (hxs : CleanSegs xs) (he : CleanName e.1) (hinv : ScanInv acc.1) :
    ScanInv (procChild fs (joinSegs xs) acc e).1 := by
  have hnd : normpath (pjoin (joinSegs xs) e.1) = joinSegs (xs ++ [e.1]) := by
    rw [pjoin_joinSegs_single xs e.1 hxs he,
      normpath_joinSegs _ (cleanSegs_append_single xs e.1 hxs he)]
  unfold procChild
  dsimp only
  split
  · exact hinv
  · exact hinv
  · exact hinv
  · rename_i hrec
    have hreg := classifyDir_record_not_reg hrec
    have hnmem : joinSegs (xs ++ [e.1]) ∉ acc.1.reg := by
      intro hm
      rw [← containsStr_iff] at hm
      rw [hnd, hm] at hreg
      exact Bool.noConfusion hreg
    rw [hnd]
    exact inv_crawlRecordRoute fs acc.1 (xs ++ [e.1]) hinv
      (cleanSegs_append_single xs e.1 hxs he) hnmem

theorem inv_procChildren (fs : FS) (xs : List Str) (hxs : CleanSegs xs) :
    ∀ (l : List (Str × FS)), (∀ e ∈ l, CleanName e.1) →
    ∀ acc : ScanState × List (Str × FS), ScanInv acc.1 →
      ScanInv ((l.foldl (procChild fs (joinSegs xs)) acc).1) := by
  intro l
  induction l with
  | nil => intro _ acc h; exact h
  | cons a rest ih =>
    intro hl acc h
    rw [List.foldl_cons]
    exact ih (fun e hee => hl e (List.mem_cons_of_mem a hee)) _
      (inv_procChild fs xs acc a hxs (hl a (List.mem_cons_self a rest)) h)

theorem crawl_scanInv : ∀ n : Nat,
    (∀ (fs : FS) (st : ScanState) (xs : List Str) (node : FS),
      sizeOf node ≤ n → wfFS node = true → CleanSegs xs → ScanInv st →
      ScanInv (crawlNode fs st (joinSegs xs) node)) ∧
    (∀ (fs : FS) (st : ScanState) (xs : List Str) (node : FS),
      sizeOf node ≤ n → wfFS node = true → CleanSegs xs → ScanInv st →
      ScanInv (crawlLinkRoot fs st (joinSegs xs) node)) ∧
    (∀ (fs : FS) (st : ScanState) (xs : List Str) (l : List (Str × FS)),
      sizeOf l ≤ n → (∀ e ∈ l, CleanName e.1 ∧ wfFS e.2 = true) →
      CleanSegs xs → ScanInv st →
      ScanInv (crawlGo fs st (joinSegs xs) l)) := by
  intro n
  induction n using Nat.strong_induction_on with
  | _ n ih =>
    refine ⟨?_, ?_, ?_⟩
    · intro fs st xs node hsz hwf hxs hinv
      rcases node with ⟨sz⟩ | ⟨t⟩ | ⟨r, cs⟩
      · rw [crawlNode]
        exact hinv
      · have hlt : sizeOf t < n := by
          have hs : sizeOf (FS.link t) = 1 + sizeOf t := by
            simp
          omega
        rw [wfFS] at hwf
        rw [crawlNode]
        exact (ih (sizeOf t) hlt).2.1 fs st xs t (le_refl _) hwf hxs hinv
      · have hlt : sizeOf cs < n := by
          have hs : sizeOf (FS.dir r cs) = 1 + sizeOf r + sizeOf cs := by
            simp
          have hr : 0 < sizeOf r := by cases r <;> simp
          omega
        have hkids := wf_children r cs hwf
        rcases r with _ | _
        · rw [crawlNode]
          exact hinv
        · rw [crawlNode]
          split
          · exact hinv
          · have hout : ScanInv ((cs.filter (fun e => isdirB e.2)).foldl
                (procChild fs (joinSegs xs)) (st, [])).1 :=
              inv_procChildren fs xs hxs _
                (fun e hee => (hkids e (List.mem_of_mem_filter hee)).1)
                (st, []) hinv
            have hsub := procChild_foldl_sublist fs (joinSegs xs)
              (cs.filter (fun e => isdirB e.2)) (st, [])
            simp only [List.nil_append] at hsub
            have hle1 := sizeOf_le_of_entrySublist hsub
            have hle2 := sizeOf_le_of_entrySublist
              (List.filter_sublist (l := cs) (p := fun e => isdirB e.2))
            refine (ih (sizeOf cs) hlt).2.2 fs _ xs _ (by omega) ?_ hxs hout
            intro e hee
            exact hkids e (List.mem_of_mem_filter (hsub.subset hee))
    · intro fs st xs node hsz hwf hxs hinv
      rcases node with ⟨sz⟩ | ⟨t⟩ | ⟨r, cs⟩
      · rw [crawlLinkRoot]
        · exact hinv
        · intro t h
          exact FS.noConfusion h
        · intro cs h
          exact FS.noConfusion h
      · have hlt : sizeOf t < n := by
          have hs : sizeOf (FS.link t) = 1 + sizeOf t := by
            simp
          omega
        rw [wfFS] at hwf
        rw [crawlLinkRoot]
        exact (ih (sizeOf t) hlt).2.1 fs st xs t (le_refl _) hwf hxs hinv
      · have hlt : sizeOf cs < n := by
          have hs : sizeOf (FS.dir r cs) = 1 + sizeOf r + sizeOf cs := by
            simp
          have hr : 0 < sizeOf r := by cases r <;> simp
          omega
        have hkids := wf_children r cs hwf
        rcases r with _ | _
        · rw [crawlLinkRoot]
          · exact hinv
          · intro t h
            exact FS.noConfusion h
          · intro cs' h
            simp at h
        · rw [crawlLinkRoot]
          have hle2 := sizeOf_le_of_entrySublist
            (List.filter_sublist (l := cs) (p := fun e => isdirB e.2))
          refine (ih (sizeOf cs) hlt).2.2 fs st xs _ (by omega) ?_ hxs hinv
          intro e hee
          exact hkids e (List.mem_of_mem_filter hee)
    · intro fs st xs l hsz hl hxs hinv
      rcases l with _ | ⟨⟨name, c⟩, rest⟩
      · rw [crawlGo]
        exact hinv
      · have hszs : sizeOf c < n ∧ sizeOf rest < n := by
          have hs : sizeOf ((name, c) :: rest) =
              1 + (1 + sizeOf name + sizeOf c) + sizeOf rest := by
            simp
          omega
        have hhd := hl (name, c) (List.mem_cons_self _ rest)
        have hrest : ∀ e ∈ rest, CleanName e.1 ∧ wfFS e.2 = true :=
          fun e hee => hl e (List.mem_cons_of_mem _ hee)
        rw [crawlGo]
        by_cases hlk : islinkB c
        · simp only [hlk, if_true]
          exact (ih (sizeOf rest) hszs.2).2.2 fs st xs rest (le_refl _)
            hrest hxs hinv
        · simp only [hlk, if_false]
          have hname : pjoin (joinSegs xs) name = joinSegs (xs ++ [name]) :=
            pjoin_joinSegs_single xs name hxs hhd.1
          rw [hname]
          have hst' := (ih (sizeOf c) hszs.1).1 fs st (xs ++ [name]) c
            (le_refl _) hhd.2 (cleanSegs_append_single xs name hxs hhd.1) hinv
          exact (ih (sizeOf rest) hszs.2).2.2 fs _ xs rest (le_refl _)
            hrest hxs hst'

theorem prog_crawl (fs : FS) (st : ScanState) :
    Progresses st (crawl_remaining_paths fs st) := by
  rw [crawl_remaining_paths]
  exact (crawl_progresses (sizeOf fs)).1 fs st (strLit "/") fs (le_refl _)

theorem inv_crawl (fs : FS) (st : ScanState) (hwf : wfFS fs = true)
    (hinv : ScanInv st) : ScanInv (crawl_remaining_paths fs st) := by
  rw [crawl_remaining_paths]
  have hroot : strLit "/" = joinSegs [] := rfl
  rw [hroot]
  exact (crawl_scanInv (sizeOf fs)).1 fs st [] fs (le_refl _) hwf
    (fun s hs => absurd hs (List.not_mem_nil s)) hinv

/-! ### The composite invariant through the gathering phases -/

theorem midinv_init (casks : List Str) : MidInv casks initState := by
  refine ⟨⟨?_, ?_⟩, ?_, ?_, ?_, ?_⟩
  · intro p hp
    simp [initState] at hp
  · intro p hp
    exfalso
    apply hp
    simp [bucketCount4, bucketCount3, manualPathB, grayPathB, userGrayPathB,
      topGrayKeyB, remainingGrayKeyB, ignoredPathB, appPathB, initState]
  · intro q hq
    simp [ignoredPathB, initState] at hq
  · intro q hq
    simp [appPathB, initState] at hq
  · intro q hq
    simp [manualPathB, initState] at hq
  · intro q hq
    simp [grayPathB, userGrayPathB, topGrayKeyB, remainingGrayKeyB,
      initState] at hq

theorem anyStr_congr {l l' : List Str} (f : Str → Bool)
    (h : ∀ x, x ∈ l ↔ x ∈ l') : l.any f = l'.any f := by
  cases hb : l'.any f
  · cases hb2 : l.any f
    · rfl
    · obtain ⟨x, hx, hfx⟩ := List.any_eq_true.mp hb2
      have hcontra : l'.any f = true := List.any_eq_true.mpr ⟨x, (h x).mp hx, hfx⟩
      rw [hb] at hcontra
      cases hcontra
  · obtain ⟨x, hx, hfx⟩ := List.any_eq_true.mp hb
    exact List.any_eq_true.mpr ⟨x, (h x).mpr hx, hfx⟩

theorem appPathB_sort (st : ScanState) (q : Str) :
    appPathB { st with customApps := sortStrs st.customApps,
                       brewApps := sortStrs st.brewApps } q = appPathB st q := by
  rw [appPathB, appPathB]
  apply anyStr_congr
  intro x
  simp [mem_sortStrs]

theorem midinv_ext (casks : List Str) (st st' : ScanState)
    (hreg : st'.reg = st.reg)
    (hman : ∀ q, manualPathB st' q = manualPathB st q)
    (hgray : ∀ q, grayPathB st' q = grayPathB st q)
    (hign : ∀ q, ignoredPathB st' q = ignoredPathB st q)
    (happ : ∀ q, appPathB st' q = appPathB st q)
    (h : MidInv casks st) : MidInv casks st' := by
  obtain ⟨⟨hpart, hcoup⟩, hiShape, haShape, hmShape, hgShape⟩ := h
  have hbc : ∀ q, bucketCount4 st' q = bucketCount4 st q := fun q =>
    bucketCount4_ext st st' q (hman q) (hgray q) (hign q) (happ q)
  refine ⟨⟨?_, ?_⟩, ?_, ?_, ?_, ?_⟩
  · intro p hp
    rw [hbc p]
    exact hpart p (hreg ▸ hp)
  · intro p hp
    rw [hbc p] at hp
    rw [hreg]
    exact hcoup p hp
  · intro q hq
    rw [hign q] at hq
    exact hiShape q hq
  · intro q hq
    rw [happ q] at hq
    exact haShape q hq
  · intro q hq
    rw [hman q] at hq
    exact hmShape q hq
  · intro q hq
    rw [hgray q] at hq
    exact hgShape q hq

theorem midinv_gbf (casks formulas : List Str) (st : ScanState)
    (h : MidInv casks st) : MidInv casks (gather_brew_formulas formulas st) :=
  midinv_ext casks st _ rfl (fun _ => rfl) (fun _ => rfl) (fun _ => rfl)
    (fun _ => rfl) h

theorem midinv_rootsIgnored (casks : List Str) :
    MidInv casks (IGNORED_ROOT_DIRS.foldl record_ignore_path initState) :=
  foldl_pres (MidInv casks) record_ignore_path IGNORED_ROOT_DIRS
    (fun s ig hig hP => midinv_rip_root casks s ig hig hP)
    initState (midinv_init casks)

theorem ra_userManual_field (st : ScanState) (full : Str)
    (casks : List Str) :
    (record_application st full casks).userManual = st.userManual := by
  rw [record_application]
  dsimp only
  split <;> rfl

theorem midinv_sortApps (casks : List Str) (st : ScanState)
    (h : MidInv casks st) :
    MidInv casks { st with customApps := sortStrs st.customApps,
                           brewApps := sortStrs st.brewApps } :=
  midinv_ext casks st _ rfl (fun _ => rfl) (fun _ => rfl) (fun _ => rfl)
    (appPathB_sort st) h

theorem midinv_gsa (casks : List Str) (fs : FS) (st st' : ScanState)
    (hwf : wfFS fs = true) (h : MidInv casks st)
    (hrun : gather_system_applications fs casks st = some st') :
    MidInv casks st' := by
  rw [gather_system_applications] at hrun
  by_cases hdir : isdirAt fs appsPath
  · rw [if_pos hdir] at hrun
    rcases hls : listdirAt fs appsPath with _ | items <;>
      simp only [hls] at hrun
    · cases hrun
    · injection hrun with h2
      subst h2
      have hclean := wf_listdir_clean fs appsPath items hwf hls
      have hF : MidInv casks (items.foldl
          (fun s item =>
            if endsWithStr (strLit ".app") item then
              record_application s (pjoin appsPath item) casks
            else s) st) := by
        refine foldl_pres (MidInv casks) _ items ?_ st h
        intro s item hmem hP
        by_cases hend : endsWithStr (strLit ".app") item = true
        · rw [if_pos hend]
          exact midinv_ra_item casks s item (hclean item hmem) hP
        · rw [if_neg hend]
          exact hP
      exact midinv_sortApps casks _ hF
  · rw [if_neg hdir] at hrun
    simp only at hrun
    injection hrun with h2
    subst h2
    exact midinv_sortApps casks st h

theorem prog_sortApps (st : ScanState) :
    Progresses st { st with customApps := sortStrs st.customApps,
                            brewApps := sortStrs st.brewApps } :=
  ⟨fun _ hq => hq, rfl⟩

theorem gsa_facts (fs : FS) (casks : List Str) (st st' : ScanState)
    (hrun : gather_system_applications fs casks st = some st') :
    Progresses st st' ∧ st'.userManual = st.userManual := by
  rw [gather_system_applications] at hrun
  by_cases hdir : isdirAt fs appsPath
  · rw [if_pos hdir] at hrun
    rcases hls : listdirAt fs appsPath with _ | items <;>
      simp only [hls] at hrun
    · cases hrun
    · injection hrun with h2
      subst h2
      have hF : (fun s => Progresses st s ∧ s.userManual = st.userManual)
          (items.foldl
            (fun s item =>
              if endsWithStr (strLit ".app") item then
                record_application s (pjoin appsPath item) casks
              else s) st) := by
        refine foldl_pres
          (fun s => Progresses st s ∧ s.userManual = st.userManual)
          _ items ?_ st ⟨prog_refl st, rfl⟩
        intro s item hmem hP
        by_cases hend : endsWithStr (strLit ".app") item = true
        · rw [if_pos hend]
          exact ⟨prog_trans hP.1 (prog_ra s _ casks),
            (ra_userManual_field s _ casks).trans hP.2⟩
        · rw [if_neg hend]
          exact hP
      exact ⟨prog_trans hF.1 (prog_sortApps _), hF.2⟩
  · rw [if_neg hdir] at hrun
    simp only at hrun
    injection hrun with h2
    subst h2
    exact ⟨prog_sortApps st, rfl⟩

theorem midinv_userManualStep (casks : List Str) (fs : FS) (st : ScanState)
    (user : Str) (hu : CleanName user) (h : MidInv casks st) :
    MidInv casks (userManualStep fs st user) := by
  rw [userManualStep]
  split
  · exact h
  · refine foldl_pres (MidInv casks) _ INCLUDE_USER_FOLDERS ?_ st h
    intro s folder hf hP
    dsimp only
    split
    · exact midinv_rumc_step casks fs s user folder hu hf hP
    · exact hP

theorem prog_userManualStep (fs : FS) (st : ScanState) (user : Str) :
    Progresses st (userManualStep fs st user) := by
  rw [userManualStep]
  split
  · exact prog_refl st
  · refine foldl_pres (Progresses st) _ INCLUDE_USER_FOLDERS ?_ st
      (prog_refl st)
    intro s folder hf hP
    dsimp only
    split
    · exact prog_trans hP (prog_rumc fs s user folder _)
    · exact hP

theorem reset_manual_id (st : ScanState) (hm : st.userManual = []) :
    { st with userManual := ([] : List (Str × List ManualRec)) } = st := by
  cases st
  dsimp only at hm ⊢
  rw [hm]

theorem midinv_gumc (casks : List Str) (fs : FS) (st : ScanState)
    (hwf : wfFS fs = true) (hm : st.userManual = [])
    (h : MidInv casks st) :
    MidInv casks (gather_user_manual_customizations fs st) := by
  rw [gather_user_manual_customizations]
  rcases hls : listdirAt fs usersDir with _ | users
  · show MidInv casks { st with userManual := [] }
    rw [reset_manual_id st hm]
    exact h
  · show MidInv casks
      (users.foldl (userManualStep fs) { st with userManual := [] })
    rw [reset_manual_id st hm]
    have hclean := wf_listdir_clean fs usersDir users hwf hls
    refine foldl_pres (MidInv casks) _ users ?_ st h
    intro s u hu hP
    exact midinv_userManualStep casks fs s u (hclean u hu) hP

theorem prog_gumc (fs : FS) (st : ScanState) :
    Progresses st (gather_user_manual_customizations fs st) := by
  rw [gather_user_manual_customizations]
  rcases hls : listdirAt fs usersDir with _ | users
  · exact ⟨fun q hq => hq, rfl⟩
  · show Progresses st
      (users.foldl (userManualStep fs) { st with userManual := [] })
    refine foldl_pres (Progresses st) _ users ?_ _ ⟨fun q hq => hq, rfl⟩
    intro s u hu hP
    exact prog_trans hP (prog_userManualStep fs s u)

theorem grayFolders_segs : ∀ g ∈ SCAN_USER_GRAY_AREA_FOLDERS,
    ∃ gsegs : List Str, g = interSlash gsegs ∧ CleanSegs gsegs ∧
      (gsegs.length = 1 ∨ gsegs.length = 2) := by
  intro g hg
  simp only [SCAN_USER_GRAY_AREA_FOLDERS, List.mem_cons,
    List.not_mem_nil, or_false] at hg
  rcases hg with rfl | rfl | rfl | rfl | rfl
  · exact ⟨[strLit "Library", strLit "Application Support"], by decide,
      by decide, by decide⟩
  · exact ⟨[strLit "Documents"], by decide, by decide, by decide⟩
  · exact ⟨[strLit "Music"], by decide, by decide, by decide⟩
  · exact ⟨[strLit "Movies"], by decide, by decide, by decide⟩
  · exact ⟨[strLit "Pictures"], by decide, by decide, by decide⟩

theorem cleanSegs_user_gsegs (u : Str) (gsegs : List Str) (hu : CleanName u)
    (hcs : CleanSegs gsegs) : CleanSegs (strLit "Users" :: u :: gsegs) := by
  intro s hs
  rcases List.mem_cons.mp hs with rfl | hs
  · decide
  · rcases List.mem_cons.mp hs with rfl | hs
    · exact hu
    · exact hcs s hs

theorem grayScanPath_join (u g : Str) (gsegs : List Str) (hu : CleanName u)
    (hg : g = interSlash gsegs) (hcs : CleanSegs gsegs) (hne : gsegs ≠ []) :
    pjoin (pjoin usersDir u) g = joinSegs (strLit "Users" :: u :: gsegs) := by
  rw [userPath_join u hu, hg, pjoin_joinSegs [strLit "Users", u] gsegs
    (cleanSegs_pair _ u (by decide) hu) hcs hne]
  rfl

theorem grayScanItemPath (u g item : Str) (gsegs : List Str)
    (hu : CleanName u) (hitem : CleanName item) (hg : g = interSlash gsegs)
    (hcs : CleanSegs gsegs) (hne : gsegs ≠ []) :
    pjoin (pjoin (pjoin usersDir u) g) item
      = joinSegs (strLit "Users" :: u :: (gsegs ++ [item])) := by
  rw [grayScanPath_join u g gsegs hu hg hcs hne,
    pjoin_joinSegs_single (strLit "Users" :: u :: gsegs) item
      (cleanSegs_user_gsegs u gsegs hu hcs) hitem]
  rfl

theorem midinv_ugsi (casks : List Str) (fs : FS) (st : ScanState)
    (u g item : Str) (hu : CleanName u) (hitem : CleanName item)
    (hg : g ∈ SCAN_USER_GRAY_AREA_FOLDERS) (h : MidInv casks st) :
    MidInv casks (userGrayScanItem fs u (pjoin (pjoin usersDir u) g) st item)
    := by
  obtain ⟨gsegs, hgeq, hgcs, hglen⟩ := grayFolders_segs g hg
  have hne : gsegs ≠ [] := by
    rcases hglen with h1 | h1 <;> (intro hc; subst hc; simp at h1)
  have hpath := grayScanItemPath u g item gsegs hu hitem hgeq hgcs hne
  rw [userGrayScanItem]
  split
  · rename_i hcond
    have hdec : ignDec item = true := by
      rcases hcond with hc | hc
      · rw [ignDec, hc]
        rfl
      · rw [ignDec, hc, Bool.or_true]
    rw [hpath]
    exact midinv_rip_deep casks st u gsegs item hu hgcs hglen hitem hdec h
  · rename_i hcond
    have h1 : IGNORE_USER_FOLDERS.contains item = false := by
      cases hb : IGNORE_USER_FOLDERS.contains item
      · rfl
      · exact absurd (Or.inl hb) hcond
    have h2 : isInitSeq (strLit "com.") item = false := by
      cases hb : isInitSeq (strLit "com.") item
      · rfl
      · exact absurd (Or.inr hb) hcond
    have hdec : ignDec item = false := by
      rw [ignDec, h1, h2]
      rfl
    dsimp only
    split
    · rw [hpath]
      exact midinv_rug_deep casks fs st u gsegs item hu hgcs hglen hitem
        hdec h
    · exact h

theorem midinv_uhsi (casks : List Str) (fs : FS) (st : ScanState)
    (u item : Str) (hu : CleanName u) (hitem : CleanName item)
    (h : MidInv casks st) :
    MidInv casks (userHomeScanItem fs u (pjoin usersDir u) st item) := by
  rw [userHomeScanItem]
  split
  · exact h
  · rename_i hcond
    have h1 : INCLUDE_USER_FOLDERS.contains item = false := by
      cases hb : INCLUDE_USER_FOLDERS.contains item
      · rfl
      · exact absurd (Or.inl hb) hcond
    have h2 : IGNORE_USER_FOLDERS.contains item = false := by
      cases hb : IGNORE_USER_FOLDERS.contains item
      · rfl
      · exact absurd (Or.inr hb) hcond
    dsimp only
    split
    · exact midinv_rug_home casks fs st u item hu hitem h1 h2 h
    · exact h

theorem prog_ugsi (fs : FS) (u sp : Str) (st : ScanState) (item : Str) :
    Progresses st (userGrayScanItem fs u sp st item) := by
  rw [userGrayScanItem]
  split
  · exact prog_rip st _
  · dsimp only
    split
    · exact prog_rug fs st u _
    · exact prog_refl st

theorem prog_uhsi (fs : FS) (u up : Str) (st : ScanState) (item : Str) :
    Progresses st (userHomeScanItem fs u up st item) := by
  rw [userHomeScanItem]
  split
  · exact prog_refl st
  · dsimp only
    split
    · exact prog_rug fs st u _
    · exact prog_refl st

theorem midinv_ugfs (casks : List Str) (fs : FS) (u : Str) (st : ScanState)
    (g : Str) (hwf : wfFS fs = true) (hu : CleanName u)
    (hg : g ∈ SCAN_USER_GRAY_AREA_FOLDERS) (h : MidInv casks st) :
    (∀ s', userGrayFolderStep fs u (pjoin usersDir u) st g = .ok s' →
      MidInv casks s') ∧
    (∀ s', userGrayFolderStep fs u (pjoin usersDir u) st g = .error s' →
      MidInv casks s') := by
  rw [userGrayFolderStep]
  constructor
  · intro s' hs'
    split at hs'
    · rcases hls : listdirAt fs (pjoin (pjoin usersDir u) g)
        with _ | items <;> rw [hls] at hs'
      · cases hs'
      · injection hs' with h2
        subst h2
        have hclean := wf_listdir_clean fs _ items hwf hls
        refine foldl_pres (MidInv casks) _ items ?_ st h
        intro s item hmem hP
        exact midinv_ugsi casks fs s u g item hu (hclean item hmem) hg hP
    · injection hs' with h2
      subst h2
      exact h
  · intro s' hs'
    split at hs'
    · rcases hls : listdirAt fs (pjoin (pjoin usersDir u) g)
        with _ | items <;> rw [hls] at hs'
      · injection hs' with h2
        subst h2
        exact h
      · cases hs'
    · cases hs'

theorem prog_ugfs (fs : FS) (u : Str) (up : Str) (st : ScanState) (g : Str) :
    (∀ s', userGrayFolderStep fs u up st g = .ok s' → Progresses st s') ∧
    (∀ s', userGrayFolderStep fs u up st g = .error s' → Progresses st s')
    := by
  rw [userGrayFolderStep]
  constructor
  · intro s' hs'
    split at hs'
    · rcases hls : listdirAt fs (pjoin up g) with _ | items <;>
        rw [hls] at hs'
      · cases hs'
      · injection hs' with h2
        subst h2
        refine foldl_pres (Progresses st) _ items ?_ st (prog_refl st)
        intro s item hmem hP
        exact prog_trans hP (prog_ugsi fs u _ s item)
    · injection hs' with h2
      subst h2
      exact prog_refl st
  · intro s' hs'
    split at hs'
    · rcases hls : listdirAt fs (pjoin up g) with _ | items <;>
        rw [hls] at hs'
      · injection hs' with h2
        subst h2
        exact prog_refl st
      · cases hs'
    · cases hs'

theorem midinv_ugus (casks : List Str) (fs : FS) (st : ScanState)
    (user : Str) (hwf : wfFS fs = true) (hu : CleanName user)
    (h : MidInv casks st) :
    (∀ s', userGrayUserStep fs st user = .ok s' → MidInv casks s') ∧
    (∀ s', userGrayUserStep fs st user = .error s' → MidInv casks s') := by
  rw [userGrayUserStep]
  have hfold := exceptFold_pres (MidInv casks)
    (userGrayFolderStep fs user (pjoin usersDir user))
    SCAN_USER_GRAY_AREA_FOLDERS
    (fun s g hgm hP => midinv_ugfs casks fs user s g hwf hu hgm hP) st h
  constructor
  · intro s' hs'
    split at hs'
    · injection hs' with h2
      subst h2
      exact h
    · rcases hef : exceptFold (userGrayFolderStep fs user
          (pjoin usersDir user)) SCAN_USER_GRAY_AREA_FOLDERS st
        with ⟨st1⟩ | ⟨st1⟩ <;> rw [hef] at hs'
      · cases hs'
      · have hst1 := hfold.1 st1 hef
        rcases hls : listdirAt fs (pjoin usersDir user) with _ | items <;>
          rw [hls] at hs'
        · cases hs'
        · injection hs' with h2
          subst h2
          have hclean := wf_listdir_clean fs _ items hwf hls
          refine foldl_pres (MidInv casks) _ items ?_ st1 hst1
          intro s item hmem hP
          exact midinv_uhsi casks fs s user item hu (hclean item hmem) hP
  · intro s' hs'
    split at hs'
    · cases hs'
    · rcases hef : exceptFold (userGrayFolderStep fs user
          (pjoin usersDir user)) SCAN_USER_GRAY_AREA_FOLDERS st
        with ⟨st1⟩ | ⟨st1⟩ <;> rw [hef] at hs'
      · injection hs' with h2
        subst h2
        exact hfold.2 st1 hef
      · have hst1 := hfold.1 st1 hef
        rcases hls : listdirAt fs (pjoin usersDir user) with _ | items <;>
          rw [hls] at hs'
        · injection hs' with h2
          subst h2
          exact hst1
        · cases hs'

theorem prog_ugus (fs : FS) (st : ScanState) (user : Str) :
    (∀ s', userGrayUserStep fs st user = .ok s' → Progresses st s') ∧
    (∀ s', userGrayUserStep fs st user = .error s' → Progresses st s') := by
  rw [userGrayUserStep]
  have hfold := exceptFold_pres (Progresses st)
    (userGrayFolderStep fs user (pjoin usersDir user))
    SCAN_USER_GRAY_AREA_FOLDERS
    (fun s g hgm hP =>
      ⟨fun s' hs' => prog_trans hP ((prog_ugfs fs user _ s g).1 s' hs'),
       fun s' hs' => prog_trans hP ((prog_ugfs fs user _ s g).2 s' hs')⟩)
    st (prog_refl st)
  constructor
  · intro s' hs'
    split at hs'
    · injection hs' with h2
      subst h2
      exact prog_refl st
    · rcases hef : exceptFold (userGrayFolderStep fs user
          (pjoin usersDir user)) SCAN_USER_GRAY_AREA_FOLDERS st
        with ⟨st1⟩ | ⟨st1⟩ <;> rw [hef] at hs'
      · cases hs'
      · have hst1 := hfold.1 st1 hef
        rcases hls : listdirAt fs (pjoin usersDir user) with _ | items <;>
          rw [hls] at hs'
        · cases hs'
        · injection hs' with h2
          subst h2
          refine foldl_pres (Progresses st) _ items ?_ st1 hst1
          intro s item hmem hP
          exact prog_trans hP (prog_uhsi fs user _ s item)
  · intro s' hs'
    split at hs'
    · cases hs'
    · rcases hef : exceptFold (userGrayFolderStep fs user
          (pjoin usersDir user)) SCAN_USER_GRAY_AREA_FOLDERS st
        with ⟨st1⟩ | ⟨st1⟩ <;> rw [hef] at hs'
      · injection hs' with h2
        subst h2
        exact hfold.2 st1 hef
      · have hst1 := hfold.1 st1 hef
        rcases hls : listdirAt fs (pjoin usersDir user) with _ | items <;>
          rw [hls] at hs'
        · injection hs' with h2
          subst h2
          exact hst1
        · cases hs'

theorem midinv_guga (casks : List Str) (fs : FS) (st : ScanState)
    (hwf : wfFS fs = true) (h : MidInv casks st) :
    MidInv casks (gather_user_gray_area fs st) := by
  rw [gather_user_gray_area]
  split
  · exact h
  · rename_i users hls
    have hclean := wf_listdir_clean fs usersDir users hwf hls
    have hfold := exceptFold_pres (MidInv casks) (fun s u =>
        userGrayUserStep fs s u) users
      (fun s u hum hP => midinv_ugus casks fs s u hwf (hclean u hum) hP) st h
    split
    · rename_i st1 hef
      exact hfold.1 st1 hef
    · rename_i st1 hef
      exact hfold.2 st1 hef

theorem prog_guga (fs : FS) (st : ScanState) :
    Progresses st (gather_user_gray_area fs st) := by
  rw [gather_user_gray_area]
  split
  · exact prog_refl st
  · rename_i users hls
    have hfold := exceptFold_pres (Progresses st) (fun s u =>
        userGrayUserStep fs s u) users
      (fun s u hum hP =>
        ⟨fun s' hs' => prog_trans hP ((prog_ugus fs s u).1 s' hs'),
         fun s' hs' => prog_trans hP ((prog_ugus fs s u).2 s' hs')⟩)
      st (prog_refl st)
    split
    · rename_i st1 hef
      exact hfold.1 st1 hef
    · rename_i st1 hef
      exact hfold.2 st1 hef

theorem midinv_tles (casks : List Str) (fs : FS) (st : ScanState)
    (entry : Str) (hentry : CleanName entry) (h : MidInv casks st) :
    MidInv casks (topLevelEntryStep fs st entry) := by
  rw [topLevelEntryStep]
  split
  · split
    · exact h
    · rename_i hcond
      have h1 : IGNORED_ROOT_DIRS.any
          (fun ig => isInitSeq ig (pjoin (strLit "/") entry)) = false := by
        cases hb : IGNORED_ROOT_DIRS.any
            (fun ig => isInitSeq ig (pjoin (strLit "/") entry))
        · rfl
        · exact absurd (Or.inl hb) hcond
      have h2 : INCLUDE_ROOT_DIRS.any
          (fun ig => isInitSeq ig (pjoin (strLit "/") entry)) = false := by
        cases hb : INCLUDE_ROOT_DIRS.any
            (fun ig => isInitSeq ig (pjoin (strLit "/") entry))
        · rfl
        · exact absurd (Or.inr hb) hcond
      exact midinv_rtg_top casks fs st entry hentry h1 h2 h
  · exact h

theorem prog_tles (fs : FS) (st : ScanState) (entry : Str) :
    Progresses st (topLevelEntryStep fs st entry) := by
  rw [topLevelEntryStep]
  split
  · split
    · exact prog_refl st
    · exact prog_rtg fs st _
  · exact prog_refl st

theorem midinv_gtlga (casks : List Str) (fs : FS) (st : ScanState)
    (hwf : wfFS fs = true) (h : MidInv casks st) :
    MidInv casks (gather_top_level_gray_area fs st) := by
  rw [gather_top_level_gray_area]
  split
  · exact h
  · rename_i entries hls
    have hclean := wf_listdir_clean fs (strLit "/") entries hwf hls
    refine foldl_pres (MidInv casks) _ entries ?_ st h
    intro s entry hmem hP
    exact midinv_tles casks fs s entry (hclean entry hmem) hP

theorem prog_gtlga (fs : FS) (st : ScanState) :
    Progresses st (gather_top_level_gray_area fs st) := by
  rw [gather_top_level_gray_area]
  split
  · exact prog_refl st
  · rename_i entries hls
    refine foldl_pres (Progresses st) _ entries ?_ st (prog_refl st)
    intro s entry hmem hP
    exact prog_trans hP (prog_tles fs s entry)

theorem rootsIgnored_userManual :
    (IGNORED_ROOT_DIRS.foldl record_ignore_path initState).userManual = [] :=
  foldl_pres (fun s => s.userManual = []) record_ignore_path
    IGNORED_ROOT_DIRS (fun _ _ _ hP => hP) initState rfl

theorem inv_mainScan (fs : FS) (casks formulas : List Str) (st' : ScanState)
    (hwf : wfFS fs = true) (h : mainScan fs casks formulas = some st') :
    ScanInv st' := by
  rw [mainScan] at h
  split at h
  · cases h
  · rename_i st2 hgsa
    injection h with h2
    subst h2
    have h0 : MidInv casks (IGNORED_ROOT_DIRS.foldl record_ignore_path
        initState) := midinv_rootsIgnored casks
    have h1 := midinv_gbf casks formulas _ h0
    have h2 := midinv_gsa casks fs _ st2 hwf h1 hgsa
    have hm2 : st2.userManual = [] := by
      rw [(gsa_facts fs casks _ st2 hgsa).2]
      exact rootsIgnored_userManual
    have h3 := midinv_gumc casks fs st2 hwf hm2 h2
    have h4 := midinv_guga casks fs _ hwf h3
    have h5 := midinv_gtlga casks fs _ hwf h4
    exact inv_crawl fs _ hwf h5.1

theorem prog_mainScan (fs : FS) (casks formulas : List Str)
    (st' : ScanState) (h : mainScan fs casks formulas = some st') :
    Progresses initState st' := by
  rw [mainScan] at h
  split at h
  · cases h
  · rename_i st2 hgsa
    injection h with h2
    subst h2
    have h0 : Progresses initState (IGNORED_ROOT_DIRS.foldl
        record_ignore_path initState) := by
      refine foldl_pres (Progresses initState) _ IGNORED_ROOT_DIRS ?_
        initState (prog_refl initState)
      intro s ig hig hP
      exact prog_trans hP (prog_rip s ig)
    have h1 : Progresses initState (gather_brew_formulas formulas
        (IGNORED_ROOT_DIRS.foldl record_ignore_path initState)) :=
      prog_trans h0 ⟨fun q hq => hq, rfl⟩
    have h2 := prog_trans h1 ((gsa_facts fs casks _ st2 hgsa).1)
    have h3 := prog_trans h2 (prog_gumc fs st2)
    have h4 := prog_trans h3 (prog_guga fs _)
    have h5 := prog_trans h4 (prog_gtlga fs _)
    exact prog_trans h5 (prog_crawl fs _)

/-! ### The fuel twin computes the crawl -/

theorem fsFuel_pos : ∀ f : FS, 1 ≤ fsFuel f := by
  intro f
  cases f <;> rw [fsFuel] <;> omega

theorem fsFuelL_pos : ∀ l : List (Str × FS), 1 ≤ fsFuelL l := by
  intro l
  cases l with
  | nil => rw [fsFuelL]
  | cons a rest => rcases a with ⟨n, c⟩; rw [fsFuelL]; omega

theorem fsFuelL_sublist {l m : List (Str × FS)} (h : l.Sublist m) :
    fsFuelL l ≤ fsFuelL m := by
  induction h with
  | slnil => exact le_refl _
  | cons a h ih =>
    rcases a with ⟨n, c⟩
    rw [fsFuelL]
    omega
  | cons₂ a h ih =>
    rcases a with ⟨n, c⟩
    rw [fsFuelL, fsFuelL]
    omega

theorem crawlF_eq : ∀ fuel : Nat,
    (∀ (fs : FS) (st : ScanState) (root : Str) (node : FS),
      fsFuel node ≤ fuel →
      crawlNodeF fuel fs st root node = crawlNode fs st root node) ∧
    (∀ (fs : FS) (st : ScanState) (root : Str) (node : FS),
      fsFuel node ≤ fuel →
      crawlLinkRootF fuel fs st root node = crawlLinkRoot fs st root node) ∧
    (∀ (fs : FS) (st : ScanState) (root : Str) (l : List (Str × FS)),
      fsFuelL l ≤ fuel →
      crawlGoF fuel fs st root l = crawlGo fs st root l) := by
  intro fuel
  induction fuel with
  | zero =>
    refine ⟨?_, ?_, ?_⟩
    · intro fs st root node hsz
      have := fsFuel_pos node
      omega
    · intro fs st root node hsz
      have := fsFuel_pos node
      omega
    · intro fs st root l hsz
      have := fsFuelL_pos l
      omega
  | succ n ih =>
    refine ⟨?_, ?_, ?_⟩
    · intro fs st root node hsz
      rcases node with ⟨sz⟩ | ⟨t⟩ | ⟨r, cs⟩
      · rw [crawlNodeF, crawlNode]
      · rw [fsFuel] at hsz
        rw [crawlNodeF, crawlNode]
        exact ih.2.1 fs st root t (by omega)
      · rw [fsFuel] at hsz
        rcases r with _ | _
        · rw [crawlNodeF, crawlNode]
        · rw [crawlNodeF, crawlNode]
          dsimp only
          split
          · rfl
          · have hsub := procChild_foldl_sublist fs root
              (cs.filter (fun e => isdirB e.2)) (st, [])
            simp only [List.nil_append] at hsub
            have hle1 := fsFuelL_sublist hsub
            have hle2 := fsFuelL_sublist
              (List.filter_sublist (l := cs) (p := fun e => isdirB e.2))
            exact ih.2.2 fs _ root _ (by omega)
    · intro fs st root node hsz
      rcases node with ⟨sz⟩ | ⟨t⟩ | ⟨r, cs⟩
      · rw [crawlLinkRootF, crawlLinkRoot]
        all_goals intro x h
        all_goals exact FS.noConfusion h
      · rw [fsFuel] at hsz
        rw [crawlLinkRootF, crawlLinkRoot]
        exact ih.2.1 fs st root t (by omega)
      · rw [fsFuel] at hsz
        rcases r with _ | _
        · rw [crawlLinkRootF, crawlLinkRoot]
          all_goals intro x h
          all_goals first
            | exact FS.noConfusion h
            | simp at h
        · rw [crawlLinkRootF, crawlLinkRoot]
          have hle2 := fsFuelL_sublist
            (List.filter_sublist (l := cs) (p := fun e => isdirB e.2))
          exact ih.2.2 fs st root _ (by omega)
    · intro fs st root l hsz
      rcases l with _ | ⟨⟨name, c⟩, rest⟩
      · rw [crawlGoF, crawlGo]
      · rw [fsFuelL] at hsz
        rw [crawlGoF, crawlGo]
        rw [ih.1 fs st (pjoin root name) c (by omega)]
        have h1 := fsFuel_pos c
        exact ih.2.2 fs _ root rest (by omega)

theorem crawl_by_fuel (fs : FS) (st : ScanState) :
    crawl_remaining_paths fs st
      = crawlNodeF (fsFuel fs) fs st (strLit "/") fs := by
  rw [crawl_remaining_paths, (crawlF_eq (fsFuel fs)).1 fs st _ fs (le_refl _)]

theorem mainScanF_eq (fs : FS) (casks formulas : List Str) :
    mainScan fs casks formulas = mainScanF fs casks formulas := by
  rw [mainScan, mainScanF]
  rcases hgsa : gather_system_applications fs casks
      (gather_brew_formulas formulas
        (IGNORED_ROOT_DIRS.foldl record_ignore_path initState))
    with _ | st2
  · rfl
  · show some (crawl_remaining_paths fs _) = some (crawlNodeF (fsFuel fs) fs _ (strLit "/") fs)
    rw [crawl_by_fuel]

/-! ## The claims -/

theorem mainScan_fsApp : mainScan fsApp [] [] = some stApp := by
  rw [mainScanF_eq]
  decide

theorem assocGet_set_self {β : Type} (m : List (Str × β)) (k : Str) (v : β) :
    assocGet (assocSet m k v) k = some v := by
  induction m with
  | nil =>
    rw [assocSet, assocGet_cons]
    simp
  | cons e rest ih =>
    rw [assocSet]
    by_cases h : e.1 = k
    · rw [if_pos h, assocGet_cons]
      simp
    · rw [if_neg h, assocGet_cons, if_neg h, ih]

theorem all_not_eq_not_any (l : List Str) (p : Str → Bool) :
    l.all (fun x => !p x) = !l.any p := by
  induction l with
  | nil => rfl
  | cons a rest ih =>
    rw [List.all_cons, List.any_cons, Bool.not_or, ih]

/-- C1: at the end of a run every registered path lies in exactly one of the
three buckets the spec names (manual summaries, gray listings, ignored set).
REFUTED: an application bundle recorded by `record_application` is
registered but its path lies in none of the three — the scan stores only its
basename in the application inventory. -/
theorem C1_counterexample :
    mainScan fsApp [] [] = some stApp ∧
    strLit "/Applications/Foo.app" ∈ stApp.reg ∧
    bucketCount3 stApp (strLit "/Applications/Foo.app") = 0 :=
  ⟨mainScan_fsApp, by decide, by decide⟩

/-- C1 (amended): with the application inventory counted as a fourth
bucket, every path registered by the end of a run on a well-formed tree
lies in exactly one bucket. -/
theorem C1_registry_partition_amended :
    ∀ (fs : FS) (casks formulas : List Str) (st' : ScanState),
      wfFS fs = true → mainScan fs casks formulas = some st' →
      ∀ p ∈ st'.reg, bucketCount4 st' p = 1 :=
  fun fs casks formulas st' hwf h p hp =>
    (inv_mainScan fs casks formulas st' hwf h).1 p hp

theorem C1_registry_partition_amended_witness :
    bucketCount4 stApp (strLit "/Applications/Foo.app") = 1 :=
  C1_registry_partition_amended fsApp [] [] stApp (by decide) mainScan_fsApp
    (strLit "/Applications/Foo.app") (by decide)

/-- C2: for a fixed registry snapshot, the crawl's classification of a
directory — from its `registered` bit, its `has registered descendant` bit
and its `is symlink` bit — yields exactly one of the four states
skip/symlink/drill/record, with the decision taken before any descent
(the classifier is a pure function of the three bits): the four listed
characterizations are mutually exclusive and exhaustive. -/
theorem C2_crawl_states :
    ∀ registered hasDesc link : Bool,
      (classifyDir registered hasDesc link = .skip ↔ registered = true) ∧
      (classifyDir registered hasDesc link = .symlink ↔
        registered = false ∧ hasDesc = true ∧ link = true) ∧
      (classifyDir registered hasDesc link = .drill ↔
        registered = false ∧ hasDesc = true ∧ link = false) ∧
      (classifyDir registered hasDesc link = .record ↔
        registered = false ∧ hasDesc = false) := by
  decide

/-- C8: registration is idempotent, leaves the normalized path contained,
never shrinks the registry, and every whole phase of the run (the crawl and
the three gatherers that run from arbitrary states) only grows the
registry. -/
theorem C8_registration_algebra :
    (∀ (reg : List Str) (p : Str),
      register_scanned_path (register_scanned_path reg p) p
        = register_scanned_path reg p) ∧
    (∀ (reg : List Str) (p : Str),
      (register_scanned_path reg p).contains (normpath p) = true) ∧
    (∀ (reg : List Str) (p : Str), reg ⊆ register_scanned_path reg p) ∧
    (∀ (fs : FS) (st : ScanState),
      st.reg ⊆ (crawl_remaining_paths fs st).reg ∧
      st.reg ⊆ (gather_user_manual_customizations fs st).reg ∧
      st.reg ⊆ (gather_user_gray_area fs st).reg ∧
      st.reg ⊆ (gather_top_level_gray_area fs st).reg) := by
  refine ⟨?_, ?_, ?_, ?_⟩
  · intro reg p
    rw [register_scanned_path, register_scanned_path,
      List.insert_of_mem (List.mem_insert_self _ _)]
  · intro reg p
    exact (containsStr_iff _ _).mpr
      ((mem_register reg p _).mpr (Or.inl rfl))
  · intro reg p
    exact register_mono reg p
  · intro fs st
    exact ⟨(prog_crawl fs st).1, (prog_gumc fs st).1, (prog_guga fs st).1,
      (prog_gtlga fs st).1⟩

/-- C9: `global_remaining_gray` is never written during a run — nothing in
the program assigns to it (its one assignment is commented out) — so at
report time it is empty and no `*_remaining_gray.txt` file is produced. -/
theorem C9_remaining_gray_empty :
    ∀ (fs : FS) (casks formulas : List Str) (st' : ScanState),
      mainScan fs casks formulas = some st' →
      st'.remainingGray = [] ∧ remaining_gray_report_files st' = [] := by
  intro fs casks formulas st' h
  have hp := prog_mainScan fs casks formulas st' h
  have h1 : st'.remainingGray = [] := by
    rw [hp.2]
    rfl
  refine ⟨h1, ?_⟩
  rw [remaining_gray_report_files, h1]
  rfl

theorem C9_remaining_gray_empty_witness :
    stApp.remainingGray = [] ∧ remaining_gray_report_files stApp = [] :=
  C9_remaining_gray_empty fsApp [] [] stApp mainScan_fsApp

/-- C3: registering a strict descendant `B` alone makes
`scanned_path_exists_as_subdirectory(A)` true. REFUTED at `A = "/"`: the
probe appends a separator (`"//"`), which no registered path starts
with — the root, whose every other path is a strict descendant, never
reports a registered descendant. -/
theorem C3_counterexample :
    strictlyExtends [] [strLit "Users"] = true ∧
    scanned_path_exists_as_subdirectory
      (register_scanned_path [] (joinSegs [strLit "Users"]))
      (joinSegs []) = false ∧
    scanned_path_exists_as_subdirectory
      (register_scanned_path [] (joinSegs [strLit "Users"]))
      (joinSegs [strLit "Users"]) = false := by
  decide

/-- C3 (amended): for clean segment sequences with `A` not the root,
registering the strict descendant `B` alone makes the descendant probe of
`A` true and that of `B` false. -/
theorem C3_descendant_amended (a b : List Str) (ha : CleanSegs a)
    (hb : CleanSegs b) (hne : a ≠ []) (hext : strictlyExtends a b = true) :
    scanned_path_exists_as_subdirectory
      (register_scanned_path [] (joinSegs b)) (joinSegs a) = true ∧
    scanned_path_exists_as_subdirectory
      (register_scanned_path [] (joinSegs b)) (joinSegs b) = false := by
  have hreg : register_scanned_path [] (joinSegs b) = [joinSegs b] := by
    rw [register_scanned_path, normpath_joinSegs b hb]
    rfl
  rw [hreg]
  rw [strictlyExtends, Bool.and_eq_true, decide_eq_true_eq] at hext
  obtain ⟨hpre, hlen⟩ := hext
  obtain ⟨r, hr⟩ := isInitSeq_iff_append.mp hpre
  have hrne : r ≠ [] := by
    intro h0
    subst h0
    rw [List.append_nil] at hr
    subst hr
    omega
  constructor
  · rw [scanned_path_exists_as_subdirectory]
    apply List.any_eq_true.mpr
    refine ⟨joinSegs b, by simp, ?_⟩
    rw [show (Char.ofNat 47) = '/' from rfl, hr, joinSegs, joinSegs,
      interSlash_append a r hne hrne]
    apply isInitSeq_iff_append.mpr
    exact ⟨interSlash r, by simp⟩
  · rw [scanned_path_exists_as_subdirectory]
    have hfalse : isInitSeq (joinSegs b ++ [Char.ofNat 47]) (joinSegs b)
        = false := by
      cases hb2 : isInitSeq (joinSegs b ++ [Char.ofNat 47]) (joinSegs b)
      · rfl
      · have := isInitSeq_length hb2
        rw [List.length_append] at this
        simp at this
    simp [hfalse]

theorem C3_descendant_amended_witness :
    scanned_path_exists_as_subdirectory
      (register_scanned_path [] (joinSegs [strLit "a", strLit "b"]))
      (joinSegs [strLit "a"]) = true ∧
    scanned_path_exists_as_subdirectory
      (register_scanned_path [] (joinSegs [strLit "a", strLit "b"]))
      (joinSegs [strLit "a", strLit "b"]) = false :=
  C3_descendant_amended [strLit "a"] [strLit "a", strLit "b"]
    (by decide) (by decide) (by decide) (by decide)

/-- C4: a symbolic-link directory is treated identically to Skip — never
followed and nothing recorded. REFUTED: an unregistered symlink child with
no registered descendant is classified `Record` (the record branch never
consults `islink`), producing a gray listing of its resolved target —
here `/Link` lands in the top-level gray map. -/
theorem C4_counterexample :
    islinkB (.link (.dir true [(strLit "inner", .file 1)])) = true ∧
    fsLink = .dir true [(strLit "Link",
      .link (.dir true [(strLit "inner", .file 1)]))] ∧
    topGrayKeyB (crawl_remaining_paths fsLink initState) (strLit "/Link")
      = true := by
  refine ⟨by decide, rfl, ?_⟩
  rw [crawl_by_fuel]
  decide

/-- C4 (amended): the crawl never follows a symbolic link (a link child is
dropped from the descent list), but a symlink child that is neither
registered nor has a registered descendant is still recorded as gray —
it is not treated identically to Skip. -/
theorem C4_symlink_amended (fs : FS) (st : ScanState)
    (ds rest : List (Str × FS)) (root name : Str) (c : FS)
    (hlink : islinkB c = true) :
    crawlGo fs st root ((name, c) :: rest) = crawlGo fs st root rest ∧
    (st.reg.contains (normpath (pjoin root name)) = false →
      scanned_path_exists_as_subdirectory st.reg
        (normpath (pjoin root name)) = false →
      procChild fs root (st, ds) (name, c) =
        (crawlRecordRoute fs st (normpath (pjoin root name)), ds)) := by
  constructor
  · rw [crawlGo]
    simp only [hlink, if_true]
  · intro hc1 hc2
    unfold procChild
    dsimp only
    simp only [hc1, hc2, hlink]
    rfl

theorem C4_symlink_amended_witness :
    crawlGo fsLink initState (strLit "/")
      [(strLit "Link", .link (.dir true [(strLit "inner", .file 1)]))]
      = crawlGo fsLink initState (strLit "/") [] ∧
    procChild fsLink (strLit "/") (initState, [])
      (strLit "Link", .link (.dir true [(strLit "inner", .file 1)])) =
      (crawlRecordRoute fsLink initState
        (normpath (pjoin (strLit "/") (strLit "Link"))), []) :=
  ⟨(C4_symlink_amended fsLink initState [] [] (strLit "/") (strLit "Link")
      (.link (.dir true [(strLit "inner", .file 1)])) (by decide)).1,
   (C4_symlink_amended fsLink initState [] [] (strLit "/") (strLit "Link")
      (.link (.dir true [(strLit "inner", .file 1)])) (by decide)).2
      (by decide) (by decide)⟩

/-- C5: any single listing error is an empty result for that attempt only
and never aborts a summarizer. REFUTED in `gather_user_gray_area`: the
whole user loop sits under one `try/except pass`, so one unreadable
listing abandons the remaining folders and users — here `alice`'s
unreadable `Documents` leaves `bob`'s recordable `Projects` unrecorded
(the state is returned unchanged). -/
theorem C5_counterexample :
    listdirAt fsTwoUsers (pjoin (pjoin usersDir (strLit "alice"))
      (strLit "Documents")) = none ∧
    isdirAt fsTwoUsers (pjoin (pjoin usersDir (strLit "bob"))
      (strLit "Projects")) = true ∧
    (strLit "Projects") ∉ INCLUDE_USER_FOLDERS ∧
    (strLit "Projects") ∉ IGNORE_USER_FOLDERS ∧
    gather_user_gray_area fsTwoUsers initState = initState := by
  decide

/-- C5 (amended): a listing error inside `gather_user_gray_area` aborts the
remaining folders and users of that summarizer (keeping the state gathered
so far, and without aborting the run), while the listing attempts of
`record_user_manual_customization` and `record_top_level_gray` recover
locally, treating the failed listing as empty. -/
theorem C5_error_handling_amended :
    (∀ (fs : FS) (st e : ScanState) (u : Str) (rest : List Str),
      listdirAt fs usersDir = some (u :: rest) →
      userGrayUserStep fs st u = .error e →
      gather_user_gray_area fs st = e) ∧
    (∀ (fs : FS) (st : ScanState) (user folder target : Str),
      listdirAt fs target = none →
      record_user_manual_customization fs st user folder target =
        { st with reg := register_scanned_path st.reg target,
                  userManual := assocSet st.userManual user
                    (((assocGet st.userManual user).getD []) ++
                      [⟨folder, 0, (get_directory_summary fs target).1,
                        (get_directory_summary fs target).2⟩]) }) ∧
    (∀ (fs : FS) (st : ScanState) (p : Str),
      listdirAt fs p = none →
      record_top_level_gray fs st p =
        { st with reg := register_scanned_path st.reg p,
                  topGray := assocSet st.topGray p [] }) := by
  refine ⟨?_, ?_, ?_⟩
  · intro fs st e u rest husers herr
    have hef : exceptFold (fun s u => userGrayUserStep fs s u) (u :: rest) st
        = .error e := by
      rw [exceptFold]
      rw [herr]
    rw [gather_user_gray_area]
    split
    · rename_i hn
      rw [husers] at hn
      cases hn
    · rename_i users' hs
      rw [husers] at hs
      injection hs with hs2
      subst hs2
      split
      · rename_i st1 hok
        rw [hef] at hok
        cases hok
      · rename_i st1 herr2
        rw [hef] at herr2
        injection herr2 with h3
        exact h3.symm
  · intro fs st user folder target h
    rw [record_user_manual_customization, h]
  · intro fs st p h
    rw [record_top_level_gray, h]
    rfl

theorem C5_error_handling_amended_witness :
    gather_user_gray_area fsTwoUsers initState = initState ∧
    record_user_manual_customization (.file 0) initState (strLit "u")
      (strLit "Desktop") (strLit "/Users/u/Desktop") =
      { initState with
          reg := register_scanned_path initState.reg
            (strLit "/Users/u/Desktop"),
          userManual := assocSet initState.userManual (strLit "u")
            (((assocGet initState.userManual (strLit "u")).getD []) ++
              [⟨strLit "Desktop", 0,
                (get_directory_summary (.file 0)
                  (strLit "/Users/u/Desktop")).1,
                (get_directory_summary (.file 0)
                  (strLit "/Users/u/Desktop")).2⟩]) } ∧
    record_top_level_gray (.file 0) initState (strLit "/X") =
      { initState with
          reg := register_scanned_path initState.reg (strLit "/X"),
          topGray := assocSet initState.topGray (strLit "/X") [] } :=
  ⟨C5_error_handling_amended.1 fsTwoUsers initState initState
      (strLit "alice") [strLit "bob"] (by decide) rfl,
   C5_error_handling_amended.2.1 (.file 0) initState (strLit "u")
      (strLit "Desktop") (strLit "/Users/u/Desktop") (by decide),
   C5_error_handling_amended.2.2 (.file 0) initState (strLit "/X")
      (by decide)⟩

/-- C6: the top-level root scan excludes a root child iff it is a member of
the configured lists. REFUTED: exclusion is decided by *string prefix*
(`full_path.startswith(ig)`): `/VolumesBackup` is in neither list, is a
directory child of `/`, yet is neither gray-listed nor registered because
`/Volumes` is a prefix of its path. -/
theorem C6_counterexample :
    (strLit "/VolumesBackup") ∉ IGNORED_ROOT_DIRS ∧
    (strLit "/VolumesBackup") ∉ INCLUDE_ROOT_DIRS ∧
    listdirAt fsVolumesBackup (strLit "/") = some [strLit "VolumesBackup"] ∧
    isdirAt fsVolumesBackup (strLit "/VolumesBackup") = true ∧
    topGrayKeyB (gather_top_level_gray_area fsVolumesBackup initState)
      (strLit "/VolumesBackup") = false ∧
    (gather_top_level_gray_area fsVolumesBackup initState).reg = [] := by
  decide

/-- C6 (amended): a root child is recorded as top-level gray iff it is a
directory and no member of the two configured root lists is a string
prefix of its full path. -/
theorem C6_top_level_amended :
    ∀ (fs : FS) (st : ScanState) (entry : Str),
      topLevelEntryStep fs st entry =
        if (isdirAt fs (pjoin (strLit "/") entry) &&
            (IGNORED_ROOT_DIRS ++ INCLUDE_ROOT_DIRS).all
              (fun ig => !isInitSeq ig (pjoin (strLit "/") entry))) = true
        then record_top_level_gray fs st (pjoin (strLit "/") entry)
        else st := by
  intro fs st entry
  rw [topLevelEntryStep, List.all_append, all_not_eq_not_any,
    all_not_eq_not_any]
  cases hd : isdirAt fs (pjoin (strLit "/") entry) <;>
    cases h1 : IGNORED_ROOT_DIRS.any
        (fun ig => isInitSeq ig (pjoin (strLit "/") entry)) <;>
      cases h2 : INCLUDE_ROOT_DIRS.any
          (fun ig => isInitSeq ig (pjoin (strLit "/") entry)) <;>
        simp [hd, h1, h2]

/-- C7: selection of secondary-scan children applies the noise-substring
and hidden-name filters. REFUTED: nothing in the selection consults
`should_ignore_path` (dead code) or `should_ignore_name` — the hidden
directory `.secret` is registered and emitted as a per-user GrayListing. -/
theorem C7_counterexample :
    should_ignore_name (strLit ".secret") = true ∧
    userGrayGet (gather_user_gray_area fsHidden initState) (strLit "u")
      (strLit "/Documents/.secret") = some [] ∧
    (strLit "/Users/u/Documents/.secret") ∈
      (gather_user_gray_area fsHidden initState).reg := by
  decide

/-- C7 (amended): the secondary-scan selection consults only membership in
`IGNORE_USER_FOLDERS` and the `com.` name prefix: a child matching either
is registered as Ignored, any other child directory is registered and
gray-listed, and no hidden-name or noise-substring filter takes part in
the selection. -/
theorem C7_secondary_scan_amended :
    ∀ (fs : FS) (u sp : Str) (st : ScanState) (item : Str),
      userGrayScanItem fs u sp st item =
        if ignDec item = true then record_ignore_path st (pjoin sp item)
        else if isdirAt fs (pjoin sp item) = true then
          record_user_gray fs st u (pjoin sp item)
        else st := by
  intro fs u sp st item
  rw [userGrayScanItem, ignDec]
  cases h1 : IGNORE_USER_FOLDERS.contains item <;>
    cases h2 : isInitSeq (strLit "com.") item <;>
      simp [h1, h2]

/-- C10: every crawl record under `/Users/` is routed with the second path
segment as owner key, and the listing is stored under the path with the
`/Users/<owner>` prefix removed — for every owner, including `Shared` and
`Guest`, whom only the summarizers skip. -/
theorem C10_crawl_user_routing :
    ∀ (fs : FS) (st : ScanState) (u : Str) (rest : List Str),
      CleanName u → CleanSegs rest → rest ≠ [] →
      crawlRecordRoute fs st (joinSegs (strLit "Users" :: u :: rest)) =
        record_user_gray fs st u (joinSegs (strLit "Users" :: u :: rest)) ∧
      userGrayGet
        (record_user_gray fs st u (joinSegs (strLit "Users" :: u :: rest)))
        u ((joinSegs (strLit "Users" :: u :: rest)).drop
            ((strLit "/Users/" ++ u).length)) =
        some (((listdirAt fs
          (joinSegs (strLit "Users" :: u :: rest))).getD []).filter
            (fun c => !should_ignore_name c)) := by
  intro fs st u rest hu hrest hne
  have hclean : CleanSegs (strLit "Users" :: u :: rest) :=
    cleanSegs_user_gsegs u rest hu hrest
  constructor
  · rw [crawlRecordRoute]
    have hpre7 : isInitSeq (strLit "/Users/")
        (joinSegs (strLit "Users" :: u :: rest)) = true := by
      obtain ⟨r, hr⟩ := isInitSeq_iff_append.mp (users_prefix_full u rest)
      rw [hr, List.append_assoc]
      exact isInitSeq_append _ _
    rw [if_pos hpre7]
    have hsp : (splitSlash
        (joinSegs (strLit "Users" :: u :: rest))).getD 2 [] = u := by
      rw [splitSlash_joinSegs _ (by simp) (fun s hs => (hclean s hs).2.1)]
      rfl
    rw [hsp]
  · rw [record_user_gray, userGrayGet]
    dsimp only
    rw [assocGet_set_self]
    exact assocGet_set_self _ _ _

theorem C10_crawl_user_routing_witness :
    crawlRecordRoute (.file 0) initState
      (joinSegs [strLit "Users", strLit "Shared", strLit "Stuff"]) =
      record_user_gray (.file 0) initState (strLit "Shared")
        (joinSegs [strLit "Users", strLit "Shared", strLit "Stuff"]) ∧
    userGrayGet (record_user_gray (.file 0) initState (strLit "Shared")
        (joinSegs [strLit "Users", strLit "Shared", strLit "Stuff"]))
      (strLit "Shared")
      ((joinSegs [strLit "Users", strLit "Shared", strLit "Stuff"]).drop
        ((strLit "/Users/" ++ strLit "Shared").length)) =
      some (((listdirAt (.file 0)
        (joinSegs [strLit "Users", strLit "Shared", strLit "Stuff"])).getD
          []).filter (fun c => !should_ignore_name c)) :=
  C10_crawl_user_routing (.file 0) initState (strLit "Shared")
    [strLit "Stuff"] (by decide) (by decide) (by decide)
